import Mathlib

/-!
The OU picker of `main.go` (zou)

A shallow embedding of the navigation state machine of `src/main.go`
(`model.Update`), of its two history stacks and of the part of `main` that
builds the index and reads the final selection.

Conventions of the embedding.

* A Go `string` is a Lean `String`; `strings.Join`, `strings.Contains` and
  `strings.Split` are re-implemented below on the character lists. The entries
  are distinguished names, that is valid UTF-8, for which the substring test on
  characters and the one on bytes agree.
* A Go slice is a `List`; `append(s, e)` is `s ++ [e]`, so the top of a stack
  is the LAST element, as in the source. A nil slice is `[]`.
* A Go `int` is an `Int`. No arithmetic of `Update` can leave the 64-bit range
  on an executed path: `cursor--` runs only when `cursor > 0`, `cursor++` only
  when `cursor < len - 1`, `depth--` only when `depth > 1`, and `depth++` only
  after some `len(ous[i]) == depth + 3` held. The sum `depth + 3` itself could
  wrap only for a depth within 3 of the largest `int`, where the comparison
  with a slice length is false with or without wrapping.
* A run-time panic (slice index out of range) is the result `none`.
-/

namespace Zou

/-! ## Go library functions used by the program -/

/-- Go `strings.Join(elems, sep)`. -/
def Join : List String → String → String
  | [], _ => ""
  | [a], _ => a
  | a :: b :: rest, sep => a ++ sep ++ Join (b :: rest) sep

/-- Substring test on character lists: `sub` occurs in `s` as a contiguous block. -/
def containsChars : List Char → List Char → Bool
  | [], sub => sub.isEmpty
  | c :: cs, sub => sub.isPrefixOf (c :: cs) || containsChars cs sub

/-- Go `strings.Contains(s, substr)`. -/
def Contains (s substr : String) : Bool :=
  containsChars s.data substr.data

/-- Splitting of a character list at every occurrence of the character `sep`. -/
def splitChars (sep : Char) : List Char → List (List Char)
  | [] => [[]]
  | c :: cs =>
    if c = sep then [] :: splitChars sep cs
    else
      match splitChars sep cs with
      | [] => [[c]]
      | seg :: segs => (c :: seg) :: segs

/-- Go `strings.Split(s, sep)` for a separator of one character (the program
only calls it with `","`). -/
def Split (s : String) (sep : Char) : List String :=
  (splitChars sep s.data).map String.mk

/-- Go slice indexing `xs[i]` with an `int` index: `none` is the
index-out-of-range panic. -/
def index {α : Type} (xs : List α) (i : Int) : Option α :=
  if 0 ≤ i then xs[i.toNat]? else none

/-! ## The two stacks (`main.go` lines 16-50) -/

/-- Go `type ArrayStack [][]string`. -/
abbrev ArrayStack := List (List String)

/-- Go `type Stack []int`. -/
abbrev Stack := List Int

/-- Go `func (s *ArrayStack) PushArray(element []string)`: the new stack. -/
def PushArray (s : ArrayStack) (element : List String) : ArrayStack :=
  s ++ [element]

/-- Go `func (s *Stack) Push(v int)`: the new stack. -/
def Push (s : Stack) (v : Int) : Stack :=
  s ++ [v]

/-- Go `func (s *ArrayStack) PopArray() []string`: the returned element (nil
on an empty stack) and the new stack. -/
def PopArray (s : ArrayStack) : List String × ArrayStack :=
  if s.length = 0 then ([], s)
  else
    let index := s.length - 1
    match s[index]? with
    | some element => (element, s.take index)
    | none => ([], s)

/-- Go `func (s *Stack) IsEmpty() bool`. -/
def IsEmpty (s : Stack) : Bool :=
  s.length == 0

/-- Go `func (s *Stack) Pop() (int, bool)`: the returned pair and the new stack. -/
def Pop (s : Stack) : (Int × Bool) × Stack :=
  if IsEmpty s then ((0, false), s)
  else
    let index := s.length - 1
    match s[index]? with
    | some element => ((element, true), s.take index)
    | none => ((0, false), s)

/-! ## The model and its update function (`main.go` lines 52-129) -/

/-- Go `type model struct`. -/
structure model where
  ous : List (List String)
  choices : List String
  infoText : String
  cursor : Int
  selected : Int
  depth : Int
  ouStack : ArrayStack
  cursorStack : Stack
deriving DecidableEq, Repr

/-- A `tea.Msg`: a key press, given by `msg.String()`, or any other message. -/
inductive Msg where
  | KeyMsg (key : String)
  | other
deriving DecidableEq, Repr

/-- A `tea.Cmd` as returned by `Update`: `nil` or `tea.Quit`. -/
inductive Cmd where
  | nil
  | Quit
deriving DecidableEq, Repr

/-- The `for` loop of the `"right"` case (lines 103-108) over the remaining
index paths, with the accumulator `newChoices`. Every iteration evaluates
`m.choices[m.cursor]`, which panics when the cursor is out of range. -/
def rightLoop (m : model) : List (List String) → List String → Option (List String)
  | [], newChoices => some newChoices
  | p :: rest, newChoices =>
    let mergedString := Join p ","
    match index m.choices m.cursor with
    | none => none
    | some sel =>
      if Contains mergedString sel = true ∧ (p.length : Int) = m.depth + 3 then
        rightLoop m rest (newChoices ++ [mergedString])
      else
        rightLoop m rest newChoices

/-- Go `func (m model) Update(msg tea.Msg) (tea.Model, tea.Cmd)`. -/
def Update (m : model) (msg : Msg) : Option (model × Cmd) :=
  match msg with
  | Msg.KeyMsg key =>
    if key = "up" ∨ key = "k" then
      let m : model := { m with infoText := "" }
      if m.cursor > 0 then
        some ({ m with cursor := m.cursor - 1 }, Cmd.nil)
      else
        some ({ m with cursor := (m.choices.length : Int) - 1 }, Cmd.nil)
    else if key = "down" ∨ key = "j" then
      let m : model := { m with infoText := "" }
      if m.cursor < (m.choices.length : Int) - 1 then
        some ({ m with cursor := m.cursor + 1 }, Cmd.nil)
      else
        some ({ m with cursor := 0 }, Cmd.nil)
    else if key = "left" then
      let m : model := { m with infoText := "" }
      if m.depth > 1 then
        let popped := PopArray m.ouStack
        let m : model := { m with choices := popped.1, ouStack := popped.2 }
        let res := Pop m.cursorStack
        let m : model := { m with cursorStack := res.2 }
        let m : model := if res.1.2 = true then { m with cursor := res.1.1 } else m
        some ({ m with depth := m.depth - 1 }, Cmd.nil)
      else
        some (m, Cmd.nil)
    else if key = "right" then
      let m : model := { m with infoText := "" }
      match rightLoop m m.ous [] with
      | none => none
      | some newChoices =>
        if newChoices.length > 0 then
          some ({ m with
                  ouStack := PushArray m.ouStack m.choices
                  cursorStack := Push m.cursorStack m.cursor
                  choices := newChoices
                  cursor := 0
                  depth := m.depth + 1 }, Cmd.nil)
        else
          some ({ m with infoText := "THE SELECTED OU IS EMPTY!" }, Cmd.nil)
    else if key = "enter" then
      some ({ m with selected := m.cursor }, Cmd.Quit)
    else if key = "q" ∨ key = "ctrl+c" then
      some (m, Cmd.Quit)
    else
      some (m, Cmd.nil)
  | Msg.other => some (m, Cmd.nil)

/-! ## The index and the initial model built by `main` (lines 206-235) -/

/-- The loop of `main` at lines 209-215 over the remaining entries, with the
accumulators `cliChoices` and `allOUs`. -/
def buildLoop : List String → List String → List (List String) →
    List String × List (List String)
  | [], cliChoices, allOUs => (cliChoices, allOUs)
  | entry :: rest, cliChoices, allOUs =>
    let subStrings := Split entry ','
    if subStrings.length ≤ 3 then
      buildLoop rest (cliChoices ++ [entry]) (allOUs ++ [subStrings])
    else
      buildLoop rest cliChoices (allOUs ++ [subStrings])

/-- The struct literal `initialModel` of `main` (lines 217-222); the fields it
does not name have their zero value. -/
def initialModel (allOUs : List (List String)) (cliChoices : List String) : model :=
  { ous := allOUs
    choices := cliChoices
    infoText := ""
    cursor := 0
    selected := -1
    depth := 1
    ouStack := []
    cursorStack := [] }

/-- The initial model that `main` builds from the sorted `entries`. -/
def mainModel (entries : List String) : model :=
  initialModel (buildLoop entries [] []).2 (buildLoop entries [] []).1

/-- The end of `main` (lines 232-235): the string `fm.choices[fm.selected]`
handed to `Printf` when `fm.selected >= 0`, and `some none` when nothing is
printed; the outer `none` is the index-out-of-range panic. -/
def selectionResult (fm : model) : Option (Option String) :=
  if fm.selected ≥ 0 then
    match index fm.choices fm.selected with
    | some s => some (some s)
    | none => none
  else some none

/-- The models obtained by handing the messages, one after the other, to
`Update`, whatever command it returns; `none` when some `Update` panics. -/
def feed (m : model) : List Msg → Option model
  | [] => some m
  | msg :: rest =>
    match Update m msg with
    | none => none
    | some (m1, _) => feed m1 rest

/-! ## Specification-level definitions -/

/-- The Child Resolver as the specification words it (section 4.3): the paths
of the index, in index order, whose joined string contains the selected display
string and whose segment count is `currentDepth + 3`, each as its joined string. -/
def childrenOf (selected : String) (currentDepth : Int) (idx : List (List String)) :
    List String :=
  (idx.filter (fun p =>
    Contains (Join p ",") selected && decide ((p.length : Int) = currentDepth + 3))).map
    (fun p => Join p ",")

/-- The invariant of the navigation state: the two stacks have the same length,
the depth is that length plus one, the cursor is a valid index whenever the
choice set is non-empty, and every cursor on the cursor stack is a valid index
into the choice set stored at the same position of the choice stack. -/
structure Inv (m : model) : Prop where
  lens : m.ouStack.length = m.cursorStack.length
  depth : m.depth = (m.ouStack.length : Int) + 1
  cur : m.choices ≠ [] → 0 ≤ m.cursor ∧ m.cursor < (m.choices.length : Int)
  stack : ∀ p ∈ List.zip m.ouStack m.cursorStack, 0 ≤ p.2 ∧ p.2 < (p.1.length : Int)

/-- The event loop while it keeps running: the messages are handed to `Update`
one after the other as long as it returns no command; `none` when some
`Update` panics or returns `tea.Quit` (the loop has then ended). -/
def feedRunning (m : model) : List Msg → Option model
  | [] => some m
  | msg :: rest =>
    match Update m msg with
    | some (m1, Cmd.nil) => feedRunning m1 rest
    | _ => none

/-- Go's `<` on strings, the order used by `sort.Strings` (line 204):
lexicographic on the characters. -/
def Less (a b : String) : Prop :=
  a.data < b.data

instance Less.instDecidable (a b : String) : Decidable (Less a b) :=
  inferInstanceAs (Decidable (a.data < b.data))

/-- Go `sort.StringsAreSorted(x)`, what `sort.Strings` establishes: no entry is
less than an earlier one. -/
def StringsAreSorted (x : List String) : Prop :=
  List.Pairwise (fun a b => ¬ Less b a) x

instance StringsAreSorted.instDecidable (x : List String) : Decidable (StringsAreSorted x) :=
  inferInstanceAs (Decidable (List.Pairwise (fun a b => ¬ Less b a) x))

/-- The choice sets of all levels, from the root to the current one: the choice
stack followed by the current choice set. -/
def levels (m : model) : List (List String) :=
  m.ouStack ++ [m.choices]

/-- The invariant that ties a state to the raw entries it was built from: the
index is the list of split entries, the choice set of every level is a
sub-list of the entries, the root level holds entries of at most 3 segments
and level `i` (counted from 0) below the root holds entries of `i + 3`
segments. -/
structure IndexInv (entries : List String) (m : model) : Prop where
  ous : m.ous = entries.map (fun e => Split e ',')
  sub : ∀ cs ∈ levels m, List.Sublist cs entries
  root : ∀ cs, (levels m)[0]? = some cs → ∀ e ∈ cs, (Split e ',').length ≤ 3
  segs : ∀ i cs, (levels m)[i]? = some cs → 1 ≤ i →
    ∀ e ∈ cs, (Split e ',').length = i + 3

/-! ## Lemmas on the library functions and the stacks -/

theorem index_eq_some_iff {α : Type} (xs : List α) (i : Int) (a : α) :
    index xs i = some a ↔ 0 ≤ i ∧ xs[i.toNat]? = some a := by
  unfold index
  split_ifs with h <;> simp [h]

theorem index_isSome_of_range {α : Type} (xs : List α) (i : Int)
    (h0 : 0 ≤ i) (h1 : i < (xs.length : Int)) : ∃ a, index xs i = some a := by
  have hlt : i.toNat < xs.length := by omega
  refine ⟨xs[i.toNat], ?_⟩
  simp [index, h0, List.getElem?_eq_getElem hlt]

theorem range_of_index_eq_some {α : Type} {xs : List α} {i : Int} {a : α}
    (h : index xs i = some a) : 0 ≤ i ∧ i < (xs.length : Int) := by
  rw [index_eq_some_iff] at h
  obtain ⟨h0, h1⟩ := h
  have hlt : i.toNat < xs.length := (List.getElem?_eq_some_iff.mp h1).1
  exact ⟨h0, by omega⟩

theorem PopArray_concat (s : ArrayStack) (e : List String) :
    PopArray (s ++ [e]) = (e, s) := by
  simp [PopArray]

theorem Pop_concat (s : Stack) (v : Int) :
    Pop (s ++ [v]) = ((v, true), s) := by
  simp [Pop, IsEmpty]

/-! ## The loop of the `"right"` case -/

theorem rightLoop_of_index_some (m : model) (sel : String)
    (h : index m.choices m.cursor = some sel) (l : List (List String)) (acc : List String) :
    rightLoop m l acc = some (acc ++ childrenOf sel m.depth l) := by
  induction l generalizing acc with
  | nil => simp [rightLoop, childrenOf]
  | cons p rest ih =>
    unfold rightLoop
    simp only [h]
    by_cases hc : Contains (Join p ",") sel = true ∧ (p.length : Int) = m.depth + 3
    · rw [if_pos hc, ih]
      simp [childrenOf, List.filter_cons, hc.1, hc.2]
    · rw [if_neg hc, ih]
      have : (Contains (Join p ",") sel && decide ((p.length : Int) = m.depth + 3)) = false := by
        rw [Bool.and_eq_false_iff]
        by_cases h1 : Contains (Join p ",") sel = true
        · right
          simpa using fun h2 => hc ⟨h1, h2⟩
        · left
          simpa using h1
      simp [childrenOf, List.filter_cons, this]

theorem rightLoop_of_index_none (m : model) (h : index m.choices m.cursor = none)
    (p : List String) (rest : List (List String)) (acc : List String) :
    rightLoop m (p :: rest) acc = none := by
  unfold rightLoop
  simp only [h]

/-! ## What `Update` returns, key by key -/

theorem Update_up (m : model) (key : String) (hk : key = "up" ∨ key = "k") :
    Update m (Msg.KeyMsg key) =
      some ({ m with
              infoText := ""
              cursor := if m.cursor > 0 then m.cursor - 1 else (m.choices.length : Int) - 1 },
            Cmd.nil) := by
  rcases hk with rfl | rfl <;> by_cases h : m.cursor > 0 <;> simp [Update, h]

theorem Update_down (m : model) (key : String) (hk : key = "down" ∨ key = "j") :
    Update m (Msg.KeyMsg key) =
      some ({ m with
              infoText := ""
              cursor := if m.cursor < (m.choices.length : Int) - 1 then m.cursor + 1 else 0 },
            Cmd.nil) := by
  rcases hk with rfl | rfl <;>
    by_cases h : m.cursor < (m.choices.length : Int) - 1 <;> simp [Update, h]

theorem Update_left_root (m : model) (h : ¬ m.depth > 1) :
    Update m (Msg.KeyMsg "left") = some ({ m with infoText := "" }, Cmd.nil) := by
  simp [Update, h]

theorem Update_left_pop (m : model) (h : m.depth > 1) (s : ArrayStack) (e : List String)
    (t : Stack) (v : Int) (hs : m.ouStack = s ++ [e]) (ht : m.cursorStack = t ++ [v]) :
    Update m (Msg.KeyMsg "left") =
      some ({ m with
              infoText := ""
              choices := e
              cursor := v
              depth := m.depth - 1
              ouStack := s
              cursorStack := t }, Cmd.nil) := by
  simp [Update, h, hs, ht, PopArray_concat, Pop_concat]

theorem Update_right_some (m : model) (sel : String)
    (h : index m.choices m.cursor = some sel) :
    Update m (Msg.KeyMsg "right") =
      if (childrenOf sel m.depth m.ous).length > 0 then
        some ({ m with
                infoText := ""
                ouStack := m.ouStack ++ [m.choices]
                cursorStack := m.cursorStack ++ [m.cursor]
                choices := childrenOf sel m.depth m.ous
                cursor := 0
                depth := m.depth + 1 }, Cmd.nil)
      else
        some ({ m with infoText := "THE SELECTED OU IS EMPTY!" }, Cmd.nil) := by
  have hloop := rightLoop_of_index_some { m with infoText := "" } sel h m.ous []
  simp only [List.nil_append] at hloop
  simp only [Update, String.reduceEq, or_self, if_false, if_true, hloop, PushArray, Push]

theorem Update_right_none_nil (m : model) (hous : m.ous = []) :
    Update m (Msg.KeyMsg "right") =
      some ({ m with infoText := "THE SELECTED OU IS EMPTY!" }, Cmd.nil) := by
  simp [Update, hous, rightLoop]

theorem Update_right_none_cons (m : model) (h : index m.choices m.cursor = none)
    (p : List String) (rest : List (List String)) (hous : m.ous = p :: rest) :
    Update m (Msg.KeyMsg "right") = none := by
  have hloop := rightLoop_of_index_none { m with infoText := "" } h p rest []
  simp only [hous] at hloop
  simp only [Update, String.reduceEq, or_self, if_false, if_true, hous, hloop]

theorem Update_enter (m : model) :
    Update m (Msg.KeyMsg "enter") = some ({ m with selected := m.cursor }, Cmd.Quit) := by
  simp [Update]

theorem Update_quit (m : model) (key : String) (hk : key = "q" ∨ key = "ctrl+c") :
    Update m (Msg.KeyMsg key) = some (m, Cmd.Quit) := by
  rcases hk with rfl | rfl <;> simp [Update]

theorem Update_ignored (m : model) (key : String)
    (h1 : ¬ (key = "up" ∨ key = "k")) (h2 : ¬ (key = "down" ∨ key = "j"))
    (h3 : key ≠ "left") (h4 : key ≠ "right") (h5 : key ≠ "enter")
    (h6 : ¬ (key = "q" ∨ key = "ctrl+c")) :
    Update m (Msg.KeyMsg key) = some (m, Cmd.nil) := by
  simp only [Update, h1, h2, h3, h4, h5, h6, if_false]

/-! ## The invariant is inductive -/

theorem Inv_initialModel (allOUs : List (List String)) (cliChoices : List String) :
    Inv (initialModel allOUs cliChoices) := by
  constructor
  · simp [initialModel]
  · simp [initialModel]
  · intro hne
    have : 0 < cliChoices.length := List.length_pos.mpr (by simpa [initialModel] using hne)
    simp only [initialModel]
    omega
  · simp [initialModel]

theorem Inv_Update {m m1 : model} {msg : Msg} {c : Cmd} (hinv : Inv m)
    (h : Update m msg = some (m1, c)) : Inv m1 := by
  obtain ⟨hl, hd, hc, hs⟩ := hinv
  cases msg with
  | other =>
    simp only [Update, Option.some.injEq, Prod.mk.injEq] at h
    obtain ⟨rfl, -⟩ := h
    exact ⟨hl, hd, hc, hs⟩
  | KeyMsg key =>
    by_cases k1 : key = "up" ∨ key = "k"
    · rw [Update_up m key k1] at h
      simp only [Option.some.injEq, Prod.mk.injEq] at h
      obtain ⟨rfl, -⟩ := h
      refine ⟨hl, hd, fun hne => ?_, hs⟩
      have hr := hc hne
      simp only
      split_ifs <;> omega
    by_cases k2 : key = "down" ∨ key = "j"
    · rw [Update_down m key k2] at h
      simp only [Option.some.injEq, Prod.mk.injEq] at h
      obtain ⟨rfl, -⟩ := h
      refine ⟨hl, hd, fun hne => ?_, hs⟩
      have hr := hc hne
      simp only
      split_ifs <;> omega
    by_cases k3 : key = "left"
    · subst k3
      by_cases h3 : m.depth > 1
      · have hlen : 0 < m.ouStack.length := by omega
        rcases List.eq_nil_or_concat m.ouStack with hnil | ⟨s, e, hse⟩
        · rw [hnil] at hlen
          simp at hlen
        rcases List.eq_nil_or_concat m.cursorStack with hnil | ⟨t, v, htv⟩
        · rw [hnil] at hl
          rw [hl] at hlen
          simp at hlen
        rw [List.concat_eq_append] at hse htv
        have hst : s.length = t.length := by
          rw [hse, htv] at hl
          simpa using hl
        have hzip : List.zip m.ouStack m.cursorStack = List.zip s t ++ [(e, v)] := by
          rw [hse, htv, List.zip_append hst]
          rfl
        have hev := hs (e, v) (by rw [hzip]; simp)
        rw [Update_left_pop m h3 s e t v hse htv] at h
        simp only [Option.some.injEq, Prod.mk.injEq] at h
        obtain ⟨rfl, -⟩ := h
        refine ⟨hst, ?_, fun _ => hev, fun p hp => hs p (by rw [hzip]; simp [hp])⟩
        simp only
        rw [hd, hse]
        simp
      · rw [Update_left_root m h3] at h
        simp only [Option.some.injEq, Prod.mk.injEq] at h
        obtain ⟨rfl, -⟩ := h
        exact ⟨hl, hd, hc, hs⟩
    by_cases k4 : key = "right"
    · subst k4
      cases hi : index m.choices m.cursor with
      | some sel =>
        have hrange := range_of_index_eq_some hi
        rw [Update_right_some m sel hi] at h
        split_ifs at h with hn
        · simp only [Option.some.injEq, Prod.mk.injEq] at h
          obtain ⟨rfl, -⟩ := h
          refine ⟨?_, ?_, fun _ => ?_, ?_⟩
          · simp [hl]
          · simp only [List.length_append, List.length_singleton]
            rw [hd]
            push_cast
            ring
          · simp only
            omega
          · intro p hp
            simp only [List.zip_append hl] at hp
            rcases List.mem_append.mp hp with hp | hp
            · exact hs p hp
            · simp only [List.zip_cons_cons, List.zip_nil_right, List.mem_singleton] at hp
              rw [hp]
              exact hrange
        · simp only [Option.some.injEq, Prod.mk.injEq] at h
          obtain ⟨rfl, -⟩ := h
          exact ⟨hl, hd, hc, hs⟩
      | none =>
        cases hous : m.ous with
        | nil =>
          rw [Update_right_none_nil m hous] at h
          simp only [Option.some.injEq, Prod.mk.injEq] at h
          obtain ⟨rfl, -⟩ := h
          exact ⟨hl, hd, hc, hs⟩
        | cons p rest =>
          rw [Update_right_none_cons m hi p rest hous] at h
          exact absurd h (by simp)
    by_cases k5 : key = "enter"
    · subst k5
      rw [Update_enter] at h
      simp only [Option.some.injEq, Prod.mk.injEq] at h
      obtain ⟨rfl, -⟩ := h
      exact ⟨hl, hd, hc, hs⟩
    by_cases k6 : key = "q" ∨ key = "ctrl+c"
    · rw [Update_quit m key k6] at h
      simp only [Option.some.injEq, Prod.mk.injEq] at h
      obtain ⟨rfl, -⟩ := h
      exact ⟨hl, hd, hc, hs⟩
    · rw [Update_ignored m key k1 k2 k3 k4 k5 k6] at h
      simp only [Option.some.injEq, Prod.mk.injEq] at h
      obtain ⟨rfl, -⟩ := h
      exact ⟨hl, hd, hc, hs⟩

theorem Inv_feed {msgs : List Msg} {m m1 : model} (hinv : Inv m)
    (h : feed m msgs = some m1) : Inv m1 := by
  induction msgs generalizing m with
  | nil =>
    simp only [feed, Option.some.injEq] at h
    exact h ▸ hinv
  | cons msg rest ih =>
    unfold feed at h
    split at h
    · exact absurd h (by simp)
    · rename_i m2 c hu
      exact ih (Inv_Update hinv hu) h

theorem Inv_top {m : model} (hinv : Inv m) (h : m.depth > 1) :
    ∃ s e t v, m.ouStack = s ++ [e] ∧ m.cursorStack = t ++ [v] ∧
      0 ≤ v ∧ v < (e.length : Int) := by
  obtain ⟨hl, hd, -, hs⟩ := hinv
  have hlen : 0 < m.ouStack.length := by omega
  rcases List.eq_nil_or_concat m.ouStack with hnil | ⟨s, e, hse⟩
  · rw [hnil] at hlen
    simp at hlen
  rcases List.eq_nil_or_concat m.cursorStack with hnil | ⟨t, v, htv⟩
  · rw [hnil] at hl
    rw [hl] at hlen
    simp at hlen
  rw [List.concat_eq_append] at hse htv
  have hst : s.length = t.length := by
    rw [hse, htv] at hl
    simpa using hl
  have hzip : List.zip m.ouStack m.cursorStack = List.zip s t ++ [(e, v)] := by
    rw [hse, htv, List.zip_append hst]
    rfl
  have hev := hs (e, v) (by rw [hzip]; simp)
  exact ⟨s, e, t, v, hse, htv, hev⟩

/-! ## Cursor arithmetic and repeated keys -/

theorem next_eq_emod (c n : Int) (h0 : 0 ≤ c) (h1 : c < n) :
    (if c < n - 1 then c + 1 else 0) = (c + 1) % n := by
  split_ifs with h
  · exact (Int.emod_eq_of_lt (show 0 ≤ c + 1 by omega) (show c + 1 < n by omega)).symm
  · have hcn : c + 1 = n := by omega
    rw [hcn, Int.emod_self]

theorem prev_eq_emod (c n : Int) (h0 : 0 ≤ c) (h1 : c < n) :
    (if c > 0 then c - 1 else n - 1) = (c - 1 + n) % n := by
  split_ifs with h
  · rw [Int.add_emod_self]
    exact (Int.emod_eq_of_lt (show 0 ≤ c - 1 by omega) (show c - 1 < n by omega)).symm
  · have hc : c - 1 + n = n - 1 := by omega
    rw [hc]
    exact (Int.emod_eq_of_lt (show 0 ≤ n - 1 by omega) (show n - 1 < n by omega)).symm

theorem feed_left_root (n : Nat) (m : model) (hd : m.depth = 1) :
    feed m (List.replicate (n + 1) (Msg.KeyMsg "left")) = some { m with infoText := "" } := by
  induction n generalizing m with
  | zero =>
    simp only [List.replicate, feed, Update_left_root m (by omega)]
  | succ k ih =>
    rw [List.replicate_succ]
    unfold feed
    simp only [Update_left_root m (by omega)]
    exact ih { m with infoText := "" } hd

theorem feed_down (keys : List String) (k : String) (m : model)
    (hk : k = "down" ∨ k = "j") (hkeys : ∀ x ∈ keys, x = "down" ∨ x = "j")
    (h0 : 0 ≤ m.cursor) (h1 : m.cursor < (m.choices.length : Int)) :
    feed m ((k :: keys).map Msg.KeyMsg) =
      some { m with
             infoText := ""
             cursor := (m.cursor + ((keys.length : Int) + 1)) % (m.choices.length : Int) } := by
  induction keys generalizing k m with
  | nil =>
    simp only [List.map, feed, Update_down m k hk, next_eq_emod m.cursor _ h0 h1,
      List.length_nil, Nat.cast_zero, zero_add]
  | cons k2 rest ih =>
    have hpos : (0 : Int) < (m.choices.length : Int) := by omega
    have hne : (m.choices.length : Int) ≠ 0 := by omega
    rw [List.map_cons]
    unfold feed
    simp only [Update_down m k hk, next_eq_emod m.cursor _ h0 h1]
    rw [ih k2 _ (hkeys k2 (List.mem_cons_self _ _))
      (fun x hx => hkeys x (List.mem_cons_of_mem _ hx))
      (Int.emod_nonneg _ hne) (Int.emod_lt_of_pos _ hpos)]
    simp only [Int.emod_add_emod, List.length_cons, Nat.cast_add, Nat.cast_one]
    congr 3
    ring

theorem childrenOf_eq_nil_iff (sel : String) (d : Int) (idx : List (List String)) :
    childrenOf sel d idx = [] ↔
      ∀ p ∈ idx, ¬ (Contains (Join p ",") sel = true ∧ (p.length : Int) = d + 3) := by
  simp [childrenOf, List.filter_eq_nil_iff]

/-- C1: in every state reachable from the initial model (depth 1, empty
stacks) by any sequence of messages handled by `Update`, the two stacks have the
same length and the depth is the length of the choice stack plus one, hence at
least one. -/
theorem C1_stacks_parallel_depth (allOUs : List (List String)) (cliChoices : List String)
    (msgs : List Msg) (m : model)
    (h : feed (initialModel allOUs cliChoices) msgs = some m) :
    m.ouStack.length = m.cursorStack.length ∧
      m.depth = (m.ouStack.length : Int) + 1 ∧ 1 ≤ m.depth := by
  have hinv := Inv_feed (Inv_initialModel allOUs cliChoices) h
  refine ⟨hinv.lens, hinv.depth, ?_⟩
  have := hinv.depth
  omega

theorem C1_stacks_parallel_depth_witness :
    feed (initialModel [["X", "dc=a", "dc=b"], ["Y", "ou=X", "dc=a", "dc=b"]] ["X,dc=a,dc=b"])
        [Msg.KeyMsg "right", Msg.KeyMsg "down"] =
      some { ous := [["X", "dc=a", "dc=b"], ["Y", "ou=X", "dc=a", "dc=b"]]
             choices := ["Y,ou=X,dc=a,dc=b"]
             infoText := ""
             cursor := 0
             selected := -1
             depth := 2
             ouStack := [["X,dc=a,dc=b"]]
             cursorStack := [0] } ∧
    ([["X,dc=a,dc=b"]].length = [(0 : Int)].length ∧
      (2 : Int) = (([["X,dc=a,dc=b"]] : List (List String)).length : Int) + 1 ∧
      (1 : Int) ≤ 2) :=
  ⟨by decide,
   C1_stacks_parallel_depth [["X", "dc=a", "dc=b"], ["Y", "ou=X", "dc=a", "dc=b"]]
     ["X,dc=a,dc=b"] [Msg.KeyMsg "right", Msg.KeyMsg "down"]
     { ous := [["X", "dc=a", "dc=b"], ["Y", "ou=X", "dc=a", "dc=b"]]
       choices := ["Y,ou=X,dc=a,dc=b"]
       infoText := ""
       cursor := 0
       selected := -1
       depth := 2
       ouStack := [["X,dc=a,dc=b"]]
       cursorStack := [0] } (by decide)⟩

/-- C2: in every state reachable from the initial model, a non-empty choice set
has the cursor in range; there MoveNext and MovePrev keep the choice set and
yield a cursor in range; and DrillOut always returns a state whose cursor is in
range for its choice set, which, when the depth exceeds one, is the non-empty
choice set popped from the stack together with its cursor. -/
theorem C2_cursor_in_range (allOUs : List (List String)) (cliChoices : List String)
    (msgs : List Msg) (m : model)
    (h : feed (initialModel allOUs cliChoices) msgs = some m) :
    (m.choices ≠ [] → 0 ≤ m.cursor ∧ m.cursor < (m.choices.length : Int)) ∧
    (m.choices ≠ [] → ∀ key, key = "down" ∨ key = "j" ∨ key = "up" ∨ key = "k" →
      ∃ m1, Update m (Msg.KeyMsg key) = some (m1, Cmd.nil) ∧ m1.choices = m.choices ∧
        0 ≤ m1.cursor ∧ m1.cursor < (m.choices.length : Int)) ∧
    (∃ m1, Update m (Msg.KeyMsg "left") = some (m1, Cmd.nil) ∧
      (m1.choices ≠ [] → 0 ≤ m1.cursor ∧ m1.cursor < (m1.choices.length : Int)) ∧
      (m.depth > 1 → m.ouStack = m1.ouStack ++ [m1.choices] ∧
        m.cursorStack = m1.cursorStack ++ [m1.cursor] ∧
        0 ≤ m1.cursor ∧ m1.cursor < (m1.choices.length : Int))) := by
  have hinv := Inv_feed (Inv_initialModel allOUs cliChoices) h
  refine ⟨hinv.cur, ?_, ?_⟩
  · intro hne key hkey
    have hr := hinv.cur hne
    rcases hkey with hk | hk | hk | hk
    · refine ⟨_, Update_down m key (Or.inl hk), rfl, ?_⟩
      simp only
      split_ifs <;> omega
    · refine ⟨_, Update_down m key (Or.inr hk), rfl, ?_⟩
      simp only
      split_ifs <;> omega
    · refine ⟨_, Update_up m key (Or.inl hk), rfl, ?_⟩
      simp only
      split_ifs <;> omega
    · refine ⟨_, Update_up m key (Or.inr hk), rfl, ?_⟩
      simp only
      split_ifs <;> omega
  · by_cases hd : m.depth > 1
    · obtain ⟨s, e, t, v, hse, htv, hev⟩ := Inv_top hinv hd
      exact ⟨_, Update_left_pop m hd s e t v hse htv, fun _ => hev, fun _ => ⟨hse, htv, hev⟩⟩
    · exact ⟨_, Update_left_root m hd, hinv.cur, fun hd1 => absurd hd1 hd⟩

theorem C2_cursor_in_range_witness :
    feed (initialModel [["X", "dc=a", "dc=b"], ["Y", "ou=X", "dc=a", "dc=b"]] ["X,dc=a,dc=b"])
        [Msg.KeyMsg "right", Msg.KeyMsg "up"] =
      some { ous := [["X", "dc=a", "dc=b"], ["Y", "ou=X", "dc=a", "dc=b"]]
             choices := ["Y,ou=X,dc=a,dc=b"]
             infoText := ""
             cursor := 0
             selected := -1
             depth := 2
             ouStack := [["X,dc=a,dc=b"]]
             cursorStack := [0] } ∧
    (["Y,ou=X,dc=a,dc=b"] ≠ [] →
      (0 : Int) ≤ 0 ∧ (0 : Int) < ((["Y,ou=X,dc=a,dc=b"] : List String).length : Int)) :=
  ⟨by decide,
   (C2_cursor_in_range [["X", "dc=a", "dc=b"], ["Y", "ou=X", "dc=a", "dc=b"]]
     ["X,dc=a,dc=b"] [Msg.KeyMsg "right", Msg.KeyMsg "up"]
     { ous := [["X", "dc=a", "dc=b"], ["Y", "ou=X", "dc=a", "dc=b"]]
       choices := ["Y,ou=X,dc=a,dc=b"]
       infoText := ""
       cursor := 0
       selected := -1
       depth := 2
       ouStack := [["X,dc=a,dc=b"]]
       cursorStack := [0] } (by decide)).1⟩

/-- C3: for a state whose cursor is a valid index of its choice set, with
`children` the specification's child list of the highlighted entry (the joined
index paths, in index order, that contain it and have `depth + 3` segments), if
`children` is non-empty then the key "right" yields exactly the state with
choices = children, cursor = 0, depth + 1, both old values pushed on top of
their stacks, the index unchanged, and no command. -/
theorem C3_drill_in_children (m : model) (h0 : 0 ≤ m.cursor)
    (h1 : m.cursor < (m.choices.length : Int)) :
    ∃ sel, index m.choices m.cursor = some sel ∧
      (childrenOf sel m.depth m.ous ≠ [] →
        Update m (Msg.KeyMsg "right") =
          some ({ ous := m.ous
                  choices := childrenOf sel m.depth m.ous
                  infoText := ""
                  cursor := 0
                  selected := m.selected
                  depth := m.depth + 1
                  ouStack := PushArray m.ouStack m.choices
                  cursorStack := Push m.cursorStack m.cursor }, Cmd.nil)) := by
  obtain ⟨sel, hsel⟩ := index_isSome_of_range m.choices m.cursor h0 h1
  refine ⟨sel, hsel, fun hne => ?_⟩
  rw [Update_right_some m sel hsel, if_pos (List.length_pos.mpr hne)]
  rfl

theorem C3_drill_in_children_witness :
    Update (initialModel [["X", "dc=a", "dc=b"], ["Y", "ou=X", "dc=a", "dc=b"]]
        ["X,dc=a,dc=b"]) (Msg.KeyMsg "right") =
      some ({ ous := [["X", "dc=a", "dc=b"], ["Y", "ou=X", "dc=a", "dc=b"]]
              choices := ["Y,ou=X,dc=a,dc=b"]
              infoText := ""
              cursor := 0
              selected := -1
              depth := 2
              ouStack := [["X,dc=a,dc=b"]]
              cursorStack := [0] }, Cmd.nil) := by
  obtain ⟨sel, hsel, h⟩ := C3_drill_in_children
    (initialModel [["X", "dc=a", "dc=b"], ["Y", "ou=X", "dc=a", "dc=b"]] ["X,dc=a,dc=b"])
    (by decide) (by decide)
  have hs : sel = "X,dc=a,dc=b" := Option.some.inj (hsel.symm.trans (by decide))
  subst hs
  exact (h (by decide)).trans (by decide)

/-- C5: for a state whose cursor is a valid index of its choice set, if no
index path both contains the highlighted entry and has `depth + 3` segments,
the key "right" changes nothing but the advisory text, which becomes a
non-empty string, and returns no command (the session goes on). -/
theorem C5_drill_in_leaf (m : model) (h0 : 0 ≤ m.cursor)
    (h1 : m.cursor < (m.choices.length : Int)) :
    ∃ sel, index m.choices m.cursor = some sel ∧
      ((∀ p ∈ m.ous, ¬ (Contains (Join p ",") sel = true ∧ (p.length : Int) = m.depth + 3)) →
        ∃ m1, Update m (Msg.KeyMsg "right") = some (m1, Cmd.nil) ∧
          m1.choices = m.choices ∧ m1.cursor = m.cursor ∧ m1.depth = m.depth ∧
          m1.ouStack = m.ouStack ∧ m1.cursorStack = m.cursorStack ∧
          m1.ous = m.ous ∧ m1.selected = m.selected ∧
          m1.infoText = "THE SELECTED OU IS EMPTY!" ∧ m1.infoText ≠ "") := by
  obtain ⟨sel, hsel⟩ := index_isSome_of_range m.choices m.cursor h0 h1
  refine ⟨sel, hsel, fun hnone => ?_⟩
  have hnil := (childrenOf_eq_nil_iff sel m.depth m.ous).mpr hnone
  refine ⟨{ m with infoText := "THE SELECTED OU IS EMPTY!" }, ?_, rfl, rfl, rfl, rfl, rfl,
    rfl, rfl, rfl, by simp⟩
  rw [Update_right_some m sel hsel, hnil]
  simp

theorem C5_drill_in_leaf_witness :
    ∃ m1, Update { ous := [["X", "dc=a", "dc=b"], ["Y", "ou=X", "dc=a", "dc=b"]]
                   choices := ["Y,ou=X,dc=a,dc=b"]
                   infoText := ""
                   cursor := 0
                   selected := -1
                   depth := 2
                   ouStack := [["X,dc=a,dc=b"]]
                   cursorStack := [0] } (Msg.KeyMsg "right") = some (m1, Cmd.nil) ∧
      m1.choices = ["Y,ou=X,dc=a,dc=b"] ∧ m1.cursor = 0 ∧ m1.depth = 2 ∧
      m1.ouStack = [["X,dc=a,dc=b"]] ∧ m1.cursorStack = [0] ∧
      m1.ous = [["X", "dc=a", "dc=b"], ["Y", "ou=X", "dc=a", "dc=b"]] ∧
      m1.selected = -1 ∧ m1.infoText = "THE SELECTED OU IS EMPTY!" ∧ m1.infoText ≠ "" := by
  obtain ⟨sel, hsel, h⟩ := C5_drill_in_leaf
    { ous := [["X", "dc=a", "dc=b"], ["Y", "ou=X", "dc=a", "dc=b"]]
      choices := ["Y,ou=X,dc=a,dc=b"]
      infoText := ""
      cursor := 0
      selected := -1
      depth := 2
      ouStack := [["X,dc=a,dc=b"]]
      cursorStack := [0] } (by decide) (by decide)
  have hs : sel = "Y,ou=X,dc=a,dc=b" := Option.some.inj (hsel.symm.trans (by decide))
  subst hs
  exact h (by decide)

/-- C6: at depth 1 the key "left" pops nothing: it returns the same state with
the advisory text cleared (choices, cursor, depth, both stacks, index and
selection unchanged, whatever the stacks hold) and no command, and pressing it
any positive number of times gives the same state as pressing it once. -/
theorem C6_drill_out_at_root (m : model) (hd : m.depth = 1) :
    Update m (Msg.KeyMsg "left") = some ({ m with infoText := "" }, Cmd.nil) ∧
    feed m [Msg.KeyMsg "left"] = some { m with infoText := "" } ∧
    ∀ n : Nat, feed m (List.replicate (n + 1) (Msg.KeyMsg "left")) =
      feed m [Msg.KeyMsg "left"] := by
  refine ⟨Update_left_root m (by omega), feed_left_root 0 m hd, fun n => ?_⟩
  rw [feed_left_root n m hd]
  exact (feed_left_root 0 m hd).symm

theorem C6_drill_out_at_root_witness :
    Update (initialModel [["X", "dc=a", "dc=b"]] ["X,dc=a,dc=b"]) (Msg.KeyMsg "left") =
      some ({ initialModel [["X", "dc=a", "dc=b"]] ["X,dc=a,dc=b"] with infoText := "" },
            Cmd.nil) ∧
    feed (initialModel [["X", "dc=a", "dc=b"]] ["X,dc=a,dc=b"]) [Msg.KeyMsg "left"] =
      some { initialModel [["X", "dc=a", "dc=b"]] ["X,dc=a,dc=b"] with infoText := "" } ∧
    ∀ n : Nat, feed (initialModel [["X", "dc=a", "dc=b"]] ["X,dc=a,dc=b"])
        (List.replicate (n + 1) (Msg.KeyMsg "left")) =
      feed (initialModel [["X", "dc=a", "dc=b"]] ["X,dc=a,dc=b"]) [Msg.KeyMsg "left"] :=
  C6_drill_out_at_root (initialModel [["X", "dc=a", "dc=b"]] ["X,dc=a,dc=b"]) (by decide)

/-- C7: for a state whose choice set has N > 0 entries and whose cursor is in
[0, N), the key "down" or "j" returns the same state with the cursor set to
(cursor + 1) mod N, which is 0 at the last entry, and the advisory text
cleared; choices, depth, both stacks, the index and the selection are unchanged
and no command is returned. -/
theorem C7_move_next (m : model) (key : String) (hk : key = "down" ∨ key = "j")
    (h0 : 0 ≤ m.cursor) (h1 : m.cursor < (m.choices.length : Int)) :
    Update m (Msg.KeyMsg key) =
      some ({ m with
              infoText := ""
              cursor := (m.cursor + 1) % (m.choices.length : Int) }, Cmd.nil) ∧
    (m.cursor = (m.choices.length : Int) - 1 →
      (m.cursor + 1) % (m.choices.length : Int) = 0) := by
  refine ⟨?_, fun hlast => ?_⟩
  · rw [Update_down m key hk, next_eq_emod m.cursor _ h0 h1]
  · have hcn : m.cursor + 1 = (m.choices.length : Int) := by omega
    rw [hcn, Int.emod_self]

theorem C7_move_next_witness :
    Update { ous := [], choices := ["a", "b", "c"], infoText := "x", cursor := 2,
             selected := -1, depth := 1, ouStack := [], cursorStack := [] }
        (Msg.KeyMsg "j") =
      some ({ ous := [], choices := ["a", "b", "c"], infoText := "", cursor := 0,
              selected := -1, depth := 1, ouStack := [], cursorStack := [] }, Cmd.nil) :=
  (C7_move_next { ous := [], choices := ["a", "b", "c"], infoText := "x", cursor := 2,
                  selected := -1, depth := 1, ouStack := [], cursorStack := [] }
    "j" (Or.inr rfl) (by decide) (by decide)).1

/-- C8: for a state whose choice set has N > 0 entries and whose cursor is in
[0, N), the key "up" or "k" sets the cursor to (cursor - 1 + N) mod N; MovePrev
after MoveNext and MoveNext after MovePrev both give back the original cursor
(the whole state, with the advisory text cleared); and on three entries from
cursor 0 the keys MoveNext, MoveNext, MovePrev end at cursor 1. -/
theorem C8_move_prev_inverse (m : model) (ku kd : String) (hu : ku = "up" ∨ ku = "k")
    (hdn : kd = "down" ∨ kd = "j")
    (h0 : 0 ≤ m.cursor) (h1 : m.cursor < (m.choices.length : Int)) :
    Update m (Msg.KeyMsg ku) =
      some ({ m with
              infoText := ""
              cursor := (m.cursor - 1 + (m.choices.length : Int)) % (m.choices.length : Int) },
            Cmd.nil) ∧
    feed m [Msg.KeyMsg kd, Msg.KeyMsg ku] = some { m with infoText := "" } ∧
    feed m [Msg.KeyMsg ku, Msg.KeyMsg kd] = some { m with infoText := "" } ∧
    (m.choices.length = 3 → m.cursor = 0 →
      feed m [Msg.KeyMsg kd, Msg.KeyMsg kd, Msg.KeyMsg ku] =
        some { m with infoText := "", cursor := 1 }) := by
  refine ⟨?_, ?_, ?_, fun h3 hc => ?_⟩
  · rw [Update_up m ku hu, prev_eq_emod m.cursor _ h0 h1]
  · simp only [feed, Update_down m kd hdn, Update_up _ ku hu, Option.some.injEq,
      model.mk.injEq, true_and, and_true]
    split_ifs <;> omega
  · simp only [feed, Update_down _ kd hdn, Update_up m ku hu, Option.some.injEq,
      model.mk.injEq, true_and, and_true]
    split_ifs <;> omega
  · simp only [feed, Update_down _ kd hdn, Update_up _ ku hu, Option.some.injEq,
      model.mk.injEq, true_and, and_true, h3, hc]
    decide

theorem C8_move_prev_inverse_witness :
    feed { ous := [], choices := ["a", "b", "c"], infoText := "", cursor := 0,
           selected := -1, depth := 1, ouStack := [], cursorStack := [] }
        [Msg.KeyMsg "down", Msg.KeyMsg "down", Msg.KeyMsg "up"] =
      some { ous := [], choices := ["a", "b", "c"], infoText := "", cursor := 1,
             selected := -1, depth := 1, ouStack := [], cursorStack := [] } :=
  (C8_move_prev_inverse
    { ous := [], choices := ["a", "b", "c"], infoText := "", cursor := 0,
      selected := -1, depth := 1, ouStack := [], cursorStack := [] }
    "up" "down" (Or.inl rfl) (Or.inl rfl) (by decide) (by decide)).2.2.2 (by decide) (by decide)

/-- C9: for a state whose choice set has N > 0 entries and whose cursor is in
[0, N), any N MoveNext keys ("down" or "j") in a row return the cursor to its
original value: the result is the original state with the advisory text
cleared, so choices, depth and both stacks are unchanged too. -/
theorem C9_move_next_cycle (m : model) (keys : List String)
    (hkeys : ∀ x ∈ keys, x = "down" ∨ x = "j") (hlen : keys.length = m.choices.length)
    (h0 : 0 ≤ m.cursor) (h1 : m.cursor < (m.choices.length : Int)) :
    feed m (keys.map Msg.KeyMsg) = some { m with infoText := "" } := by
  cases keys with
  | nil =>
    simp only [List.length_nil] at hlen
    omega
  | cons k rest =>
    rw [feed_down rest k m (hkeys k (List.mem_cons_self _ _))
      (fun x hx => hkeys x (List.mem_cons_of_mem _ hx)) h0 h1]
    have hn : (rest.length : Int) + 1 = (m.choices.length : Int) := by
      rw [← hlen]
      simp
    rw [hn, Int.add_emod_self, Int.emod_eq_of_lt h0 h1]

theorem C9_move_next_cycle_witness :
    feed { ous := [], choices := ["a", "b", "c"], infoText := "x", cursor := 1,
           selected := -1, depth := 1, ouStack := [], cursorStack := [] }
        (["down", "j", "down"].map Msg.KeyMsg) =
      some { ous := [], choices := ["a", "b", "c"], infoText := "", cursor := 1,
             selected := -1, depth := 1, ouStack := [], cursorStack := [] } :=
  C9_move_next_cycle
    { ous := [], choices := ["a", "b", "c"], infoText := "x", cursor := 1,
      selected := -1, depth := 1, ouStack := [], cursorStack := [] }
    ["down", "j", "down"] (by decide) (by decide) (by decide) (by decide)

/-- C10: in every state reachable from the initial model whose choice set is
non-empty, the highlighted entry choices[cursor] exists, the key "enter"
returns the quit command and the same state with selected = cursor (choices
unchanged), and the caller then reads choices[selected], which is that
highlighted entry; for a one-entry choice set it is that entry. -/
theorem C10_confirm_selection (allOUs : List (List String)) (cliChoices : List String)
    (msgs : List Msg) (m : model)
    (h : feed (initialModel allOUs cliChoices) msgs = some m) (hne : m.choices ≠ []) :
    ∃ s, index m.choices m.cursor = some s ∧
      Update m (Msg.KeyMsg "enter") = some ({ m with selected := m.cursor }, Cmd.Quit) ∧
      selectionResult { m with selected := m.cursor } = some (some s) ∧
      (∀ e, m.choices = [e] → s = e) := by
  have hinv := Inv_feed (Inv_initialModel allOUs cliChoices) h
  obtain ⟨h0, h1⟩ := hinv.cur hne
  obtain ⟨s, hs⟩ := index_isSome_of_range m.choices m.cursor h0 h1
  refine ⟨s, hs, Update_enter m, ?_, fun e he => ?_⟩
  · simp only [selectionResult, ge_iff_le, h0, if_true, hs]
  · rw [he] at hs h1
    have hc : m.cursor = 0 := by
      simp only [List.length_singleton, Nat.cast_one] at h1
      omega
    rw [hc] at hs
    simpa [index] using hs.symm

theorem C10_confirm_selection_witness :
    Update (initialModel [["ou=Sales", "dc=a", "dc=b"]] ["ou=Sales,dc=a,dc=b"])
        (Msg.KeyMsg "enter") =
      some ({ ous := [["ou=Sales", "dc=a", "dc=b"]]
              choices := ["ou=Sales,dc=a,dc=b"]
              infoText := ""
              cursor := 0
              selected := 0
              depth := 1
              ouStack := []
              cursorStack := [] }, Cmd.Quit) ∧
    selectionResult { ous := [["ou=Sales", "dc=a", "dc=b"]]
                      choices := ["ou=Sales,dc=a,dc=b"]
                      infoText := ""
                      cursor := 0
                      selected := 0
                      depth := 1
                      ouStack := []
                      cursorStack := [] } = some (some "ou=Sales,dc=a,dc=b") := by
  obtain ⟨s, -, hu, hr, he⟩ := C10_confirm_selection [["ou=Sales", "dc=a", "dc=b"]]
    ["ou=Sales,dc=a,dc=b"] []
    (initialModel [["ou=Sales", "dc=a", "dc=b"]] ["ou=Sales,dc=a,dc=b"]) (by decide)
    (by decide)
  have hs : s = "ou=Sales,dc=a,dc=b" := he _ rfl
  subst hs
  exact ⟨hu, hr⟩

/-! ## Splitting and joining -/

theorem splitChars_ne_nil (sep : Char) (cs : List Char) : splitChars sep cs ≠ [] := by
  cases cs with
  | nil => simp [splitChars]
  | cons c rest =>
    unfold splitChars
    split_ifs
    · simp
    · split <;> simp

theorem Join_cons_char (c : Char) (seg : List Char) (rest : List String) (sep : String) :
    Join (String.mk (c :: seg) :: rest) sep =
      String.mk (c :: (Join (String.mk seg :: rest) sep).data) := by
  cases rest with
  | nil => simp [Join]
  | cons b more =>
    apply String.ext
    simp [Join, String.data_append]

theorem Join_splitChars (cs : List Char) :
    Join ((splitChars ',' cs).map String.mk) "," = String.mk cs := by
  induction cs with
  | nil => simp [splitChars, Join]
  | cons c rest ih =>
    obtain ⟨seg, segs, hsplit⟩ := List.exists_cons_of_ne_nil (splitChars_ne_nil ',' rest)
    rw [hsplit] at ih
    unfold splitChars
    by_cases hc : c = ','
    · rw [if_pos hc, hsplit]
      simp only [List.map_cons] at ih ⊢
      unfold Join
      rw [ih, hc]
      apply String.ext
      simp [String.data_append]
    · rw [if_neg hc, hsplit]
      simp only [List.map_cons] at ih ⊢
      rw [Join_cons_char, ih]

theorem Join_Split (e : String) : Join (Split e ',') "," = e := by
  unfold Split
  rw [Join_splitChars]

theorem Split_length_pos (e : String) : 1 ≤ (Split e ',').length := by
  unfold Split
  rw [List.length_map]
  exact Nat.succ_le_of_lt (List.length_pos.mpr (splitChars_ne_nil ',' e.data))

/-! ## The index built by `main` -/

theorem buildLoop_eq (entries cliChoices : List String) (allOUs : List (List String)) :
    buildLoop entries cliChoices allOUs =
      (cliChoices ++ entries.filter (fun e => decide ((Split e ',').length ≤ 3)),
       allOUs ++ entries.map (fun e => Split e ',')) := by
  induction entries generalizing cliChoices allOUs with
  | nil => simp [buildLoop]
  | cons e rest ih =>
    unfold buildLoop
    by_cases h : (Split e ',').length ≤ 3
    · simp only [h, if_true, ih, List.filter_cons, decide_True, List.map_cons,
        List.append_assoc, List.singleton_append]
    · simp only [h, if_false, ih, List.filter_cons, decide_False, List.map_cons,
        List.append_assoc, List.singleton_append]
      rfl

theorem mainModel_ous (entries : List String) :
    (mainModel entries).ous = entries.map (fun e => Split e ',') := by
  simp [mainModel, initialModel, buildLoop_eq]

theorem mainModel_choices (entries : List String) :
    (mainModel entries).choices =
      entries.filter (fun e => decide ((Split e ',').length ≤ 3)) := by
  simp [mainModel, initialModel, buildLoop_eq]

theorem childrenOf_map_Split (sel : String) (d : Int) (entries : List String) :
    childrenOf sel d (entries.map (fun e => Split e ',')) =
      entries.filter (fun e =>
        Contains e sel && decide (((Split e ',').length : Int) = d + 3)) := by
  induction entries with
  | nil => simp [childrenOf]
  | cons e rest ih =>
    unfold childrenOf at ih ⊢
    simp only [List.map_cons, List.filter_cons, Join_Split]
    split_ifs
    · rw [List.map_cons, ih, Join_Split]
    · exact ih

/-! ## The shape of a step -/

theorem Update_cases {m m1 : model} {msg : Msg} {c : Cmd} (hinv : Inv m)
    (h : Update m msg = some (m1, c)) :
    m1.ous = m.ous ∧
    ((m1.choices = m.choices ∧ m1.ouStack = m.ouStack ∧ m1.cursorStack = m.cursorStack ∧
        m1.depth = m.depth) ∨
     (∃ sel, index m.choices m.cursor = some sel ∧ childrenOf sel m.depth m.ous ≠ [] ∧
        m1.choices = childrenOf sel m.depth m.ous ∧ m1.ouStack = m.ouStack ++ [m.choices] ∧
        m1.cursorStack = m.cursorStack ++ [m.cursor] ∧ m1.cursor = 0 ∧
        m1.depth = m.depth + 1) ∨
     (m.depth > 1 ∧ m.ouStack = m1.ouStack ++ [m1.choices] ∧
        m.cursorStack = m1.cursorStack ++ [m1.cursor] ∧ m1.depth = m.depth - 1)) := by
  cases msg with
  | other =>
    simp only [Update, Option.some.injEq, Prod.mk.injEq] at h
    obtain ⟨rfl, -⟩ := h
    exact ⟨rfl, Or.inl ⟨rfl, rfl, rfl, rfl⟩⟩
  | KeyMsg key =>
    by_cases k1 : key = "up" ∨ key = "k"
    · rw [Update_up m key k1] at h
      simp only [Option.some.injEq, Prod.mk.injEq] at h
      obtain ⟨rfl, -⟩ := h
      exact ⟨rfl, Or.inl ⟨rfl, rfl, rfl, rfl⟩⟩
    by_cases k2 : key = "down" ∨ key = "j"
    · rw [Update_down m key k2] at h
      simp only [Option.some.injEq, Prod.mk.injEq] at h
      obtain ⟨rfl, -⟩ := h
      exact ⟨rfl, Or.inl ⟨rfl, rfl, rfl, rfl⟩⟩
    by_cases k3 : key = "left"
    · subst k3
      by_cases h3 : m.depth > 1
      · obtain ⟨s, e, t, v, hse, htv, -⟩ := Inv_top hinv h3
        rw [Update_left_pop m h3 s e t v hse htv] at h
        simp only [Option.some.injEq, Prod.mk.injEq] at h
        obtain ⟨rfl, -⟩ := h
        exact ⟨rfl, Or.inr (Or.inr ⟨h3, hse, htv, rfl⟩)⟩
      · rw [Update_left_root m h3] at h
        simp only [Option.some.injEq, Prod.mk.injEq] at h
        obtain ⟨rfl, -⟩ := h
        exact ⟨rfl, Or.inl ⟨rfl, rfl, rfl, rfl⟩⟩
    by_cases k4 : key = "right"
    · subst k4
      cases hi : index m.choices m.cursor with
      | some sel =>
        rw [Update_right_some m sel hi] at h
        split_ifs at h with hn
        · simp only [Option.some.injEq, Prod.mk.injEq] at h
          obtain ⟨rfl, -⟩ := h
          exact ⟨rfl, Or.inr (Or.inl ⟨sel, rfl, List.length_pos.mp hn, rfl, rfl, rfl, rfl,
            rfl⟩)⟩
        · simp only [Option.some.injEq, Prod.mk.injEq] at h
          obtain ⟨rfl, -⟩ := h
          exact ⟨rfl, Or.inl ⟨rfl, rfl, rfl, rfl⟩⟩
      | none =>
        have hshape : m.ous = [] ∨ ∃ p rest, m.ous = p :: rest := by
          cases m.ous <;> simp
        rcases hshape with hous | ⟨p, rest, hous⟩
        · rw [Update_right_none_nil m hous] at h
          simp only [Option.some.injEq, Prod.mk.injEq] at h
          obtain ⟨rfl, -⟩ := h
          exact ⟨rfl, Or.inl ⟨rfl, rfl, rfl, rfl⟩⟩
        · rw [Update_right_none_cons m hi p rest hous] at h
          exact absurd h (by simp)
    by_cases k5 : key = "enter"
    · subst k5
      rw [Update_enter] at h
      simp only [Option.some.injEq, Prod.mk.injEq] at h
      obtain ⟨rfl, -⟩ := h
      exact ⟨rfl, Or.inl ⟨rfl, rfl, rfl, rfl⟩⟩
    by_cases k6 : key = "q" ∨ key = "ctrl+c"
    · rw [Update_quit m key k6] at h
      simp only [Option.some.injEq, Prod.mk.injEq] at h
      obtain ⟨rfl, -⟩ := h
      exact ⟨rfl, Or.inl ⟨rfl, rfl, rfl, rfl⟩⟩
    · rw [Update_ignored m key k1 k2 k3 k4 k5 k6] at h
      simp only [Option.some.injEq, Prod.mk.injEq] at h
      obtain ⟨rfl, -⟩ := h
      exact ⟨rfl, Or.inl ⟨rfl, rfl, rfl, rfl⟩⟩

/-! ## The invariant on the index and the levels is inductive -/

theorem getElem?_append_of_eq_some {α : Type} {l : List α} {i : Nat} {x : α}
    (h : l[i]? = some x) (l2 : List α) : (l ++ l2)[i]? = some x := by
  have hlt : i < l.length := (List.getElem?_eq_some_iff.mp h).1
  rw [List.getElem?_append_left hlt]
  exact h

theorem IndexInv_mainModel (entries : List String) : IndexInv entries (mainModel entries) := by
  have hlev : levels (mainModel entries) =
      [entries.filter (fun e => decide ((Split e ',').length ≤ 3))] := by
    simp [levels, mainModel, initialModel, buildLoop_eq]
  refine ⟨mainModel_ous entries, ?_, ?_, ?_⟩
  · intro cs hcs
    rw [hlev, List.mem_singleton] at hcs
    rw [hcs]
    exact List.filter_sublist _
  · intro cs hcs e he
    rw [hlev] at hcs
    simp only [List.getElem?_cons_zero, Option.some.injEq] at hcs
    rw [← hcs, List.mem_filter] at he
    simpa using he.2
  · intro i cs hcs hi
    rw [hlev] at hcs
    have hlt : i < 1 := by
      simpa using (List.getElem?_eq_some_iff.mp hcs).1
    omega

theorem IndexInv_Update {entries : List String} {m m1 : model} {msg : Msg} {c : Cmd}
    (hinv : Inv m) (hidx : IndexInv entries m) (h : Update m msg = some (m1, c)) :
    IndexInv entries m1 := by
  obtain ⟨hous, hsub, hroot, hsegs⟩ := hidx
  obtain ⟨ho, hcase⟩ := Update_cases hinv h
  rcases hcase with ⟨hch, hst, -, -⟩ | ⟨sel, -, -, hch, hst, -, -, hd⟩ | ⟨-, hst, -, -⟩
  · have hlev : levels m1 = levels m := by
      simp [levels, hch, hst]
    exact ⟨ho.trans hous, by rwa [hlev], by rwa [hlev], by rwa [hlev]⟩
  · have hlev : levels m1 = levels m ++ [childrenOf sel m.depth m.ous] := by
      simp [levels, hch, hst]
    have hchild : childrenOf sel m.depth m.ous =
        entries.filter (fun e =>
          Contains e sel && decide (((Split e ',').length : Int) = m.depth + 3)) := by
      rw [hous, childrenOf_map_Split]
    have hlen : (levels m).length = m.ouStack.length + 1 := by
      simp [levels]
    refine ⟨ho.trans hous, ?_, ?_, ?_⟩
    · intro cs hcs
      rw [hlev, List.mem_append, List.mem_singleton] at hcs
      rcases hcs with hcs | hcs
      · exact hsub cs hcs
      · rw [hcs, hchild]
        exact List.filter_sublist _
    · intro cs hcs
      rw [hlev, List.getElem?_append_left (by rw [hlen]; omega)] at hcs
      exact hroot cs hcs
    · intro i cs hcs hi e he
      by_cases hlt : i < (levels m).length
      · rw [hlev, List.getElem?_append_left hlt] at hcs
        exact hsegs i cs hcs hi e he
      · have hile : i < (levels m1).length := (List.getElem?_eq_some_iff.mp hcs).1
        have hieq : i = (levels m).length := by
          rw [hlev, List.length_append, List.length_singleton] at hile
          omega
        rw [hlev, hieq, List.getElem?_append_right (le_refl _)] at hcs
        simp only [Nat.sub_self, List.getElem?_cons_zero, Option.some.injEq] at hcs
        rw [← hcs, hchild, List.mem_filter] at he
        have hseg : ((Split e ',').length : Int) = m.depth + 3 := by
          have h2 := he.2
          simp only [Bool.and_eq_true, decide_eq_true_eq] at h2
          exact h2.2
        have hdep := hinv.depth
        rw [hlen] at hieq
        omega
  · have hlev : levels m = levels m1 ++ [m.choices] := by
      simp [levels, hst]
    refine ⟨ho.trans hous, ?_, ?_, ?_⟩
    · intro cs hcs
      exact hsub cs (by rw [hlev]; exact List.mem_append_left _ hcs)
    · intro cs hcs
      exact hroot cs (by rw [hlev]; exact getElem?_append_of_eq_some hcs _)
    · intro i cs hcs hi
      exact hsegs i cs (by rw [hlev]; exact getElem?_append_of_eq_some hcs _) hi

theorem invariants_feed {entries : List String} {msgs : List Msg} {m m1 : model}
    (hinv : Inv m) (hidx : IndexInv entries m) (h : feed m msgs = some m1) :
    Inv m1 ∧ IndexInv entries m1 := by
  induction msgs generalizing m with
  | nil =>
    simp only [feed, Option.some.injEq] at h
    exact h ▸ ⟨hinv, hidx⟩
  | cons msg rest ih =>
    unfold feed at h
    split at h
    · exact absurd h (by simp)
    · rename_i m2 c hu
      exact ih (Inv_Update hinv hu) (IndexInv_Update hinv hidx hu) h

theorem invariants_reachable {entries : List String} {msgs : List Msg} {m : model}
    (h : feed (mainModel entries) msgs = some m) : Inv m ∧ IndexInv entries m :=
  invariants_feed (Inv_initialModel _ _) (IndexInv_mainModel entries) h

/-! ## Further lemmas for the claims on reachable states -/

theorem Update_nil_selected {m m1 : model} {msg : Msg}
    (h : Update m msg = some (m1, Cmd.nil)) : m1.selected = m.selected := by
  cases msg with
  | other =>
    simp only [Update, Option.some.injEq, Prod.mk.injEq] at h
    obtain ⟨rfl, -⟩ := h
    rfl
  | KeyMsg key =>
    by_cases k1 : key = "up" ∨ key = "k"
    · rw [Update_up m key k1] at h
      simp only [Option.some.injEq, Prod.mk.injEq] at h
      obtain ⟨rfl, -⟩ := h
      rfl
    by_cases k2 : key = "down" ∨ key = "j"
    · rw [Update_down m key k2] at h
      simp only [Option.some.injEq, Prod.mk.injEq] at h
      obtain ⟨rfl, -⟩ := h
      rfl
    by_cases k3 : key = "left"
    · subst k3
      simp only [Update, String.reduceEq, or_self, if_false, if_true] at h
      split_ifs at h <;>
        (simp only [Option.some.injEq, Prod.mk.injEq] at h
         obtain ⟨rfl, -⟩ := h
         rfl)
    by_cases k4 : key = "right"
    · subst k4
      cases hi : index m.choices m.cursor with
      | some sel =>
        rw [Update_right_some m sel hi] at h
        split_ifs at h <;>
          (simp only [Option.some.injEq, Prod.mk.injEq] at h
           obtain ⟨rfl, -⟩ := h
           rfl)
      | none =>
        have hshape : m.ous = [] ∨ ∃ p rest, m.ous = p :: rest := by
          cases m.ous <;> simp
        rcases hshape with hous | ⟨p, rest, hous⟩
        · rw [Update_right_none_nil m hous] at h
          simp only [Option.some.injEq, Prod.mk.injEq] at h
          obtain ⟨rfl, -⟩ := h
          rfl
        · rw [Update_right_none_cons m hi p rest hous] at h
          exact absurd h (by simp)
    by_cases k5 : key = "enter"
    · subst k5
      rw [Update_enter] at h
      simp at h
    by_cases k6 : key = "q" ∨ key = "ctrl+c"
    · rw [Update_quit m key k6] at h
      simp at h
    · rw [Update_ignored m key k1 k2 k3 k4 k5 k6] at h
      simp only [Option.some.injEq, Prod.mk.injEq] at h
      obtain ⟨rfl, -⟩ := h
      rfl

theorem feedRunning_selected {msgs : List Msg} {m m1 : model}
    (h : feedRunning m msgs = some m1) : m1.selected = m.selected := by
  induction msgs generalizing m with
  | nil =>
    simp only [feedRunning, Option.some.injEq] at h
    rw [h]
  | cons msg rest ih =>
    unfold feedRunning at h
    split at h
    · rename_i m2 hu
      rw [ih h, Update_nil_selected hu]
    · exact absurd h (by simp)

theorem current_level (m : model) : (levels m)[m.ouStack.length]? = some m.choices := by
  simp [levels]

theorem segments_below_root {entries : List String} {m : model} (hinv : Inv m)
    (hidx : IndexInv entries m) (hd : 2 ≤ m.depth) :
    ∀ e ∈ m.choices, ((Split e ',').length : Int) = m.depth + 2 := by
  intro e he
  have hdep := hinv.depth
  have hseg := hidx.segs m.ouStack.length m.choices (current_level m) (by omega) e he
  omega

theorem segments_at_root {entries : List String} {m : model} (hinv : Inv m)
    (hidx : IndexInv entries m) (hd : m.depth = 1) :
    ∀ e ∈ m.choices, (Split e ',').length ≤ 3 := by
  intro e he
  have hdep := hinv.depth
  have hlen : m.ouStack.length = 0 := by omega
  have hcur := current_level m
  rw [hlen] at hcur
  exact hidx.root m.choices hcur e he

theorem exists_mem_zip {α β : Type} (l1 : List α) (l2 : List β)
    (hlen : l1.length = l2.length) (a : α) (ha : a ∈ l1) : ∃ b, (a, b) ∈ List.zip l1 l2 := by
  induction l1 generalizing l2 with
  | nil => simp at ha
  | cons x xs ih =>
    cases l2 with
    | nil => simp at hlen
    | cons y ys =>
      simp only [List.length_cons, Nat.succ.injEq, add_left_inj] at hlen
      rcases List.mem_cons.mp ha with hax | hax
      · exact ⟨y, by rw [hax]; simp⟩
      · obtain ⟨b, hb⟩ := ih ys hlen hax
        exact ⟨b, by simp [hb]⟩

theorem choices_nonempty_Update {m m1 : model} {msg : Msg} {c : Cmd} (hinv : Inv m)
    (hne : m.choices ≠ []) (h : Update m msg = some (m1, c)) : m1.choices ≠ [] := by
  obtain ⟨-, hcase⟩ := Update_cases hinv h
  rcases hcase with ⟨hch, -, -, -⟩ | ⟨sel, -, hchild, hch, -, -, -, -⟩ | ⟨hd, hst, hct, -⟩
  · rwa [hch]
  · rwa [hch]
  · have hlen : m1.ouStack.length = m1.cursorStack.length := (Inv_Update hinv h).lens
    have hzip : List.zip m.ouStack m.cursorStack =
        List.zip m1.ouStack m1.cursorStack ++ [(m1.choices, m1.cursor)] := by
      rw [hst, hct, List.zip_append hlen]
      rfl
    have hr := hinv.stack (m1.choices, m1.cursor) (by rw [hzip]; simp)
    intro hnil
    rw [hnil] at hr
    simp only [List.length_nil, Nat.cast_zero] at hr
    omega

theorem choices_nonempty_feed {msgs : List Msg} {m m1 : model} (hinv : Inv m)
    (hne : m.choices ≠ []) (h : feed m msgs = some m1) : m1.choices ≠ [] := by
  induction msgs generalizing m with
  | nil =>
    simp only [feed, Option.some.injEq] at h
    exact h ▸ hne
  | cons msg rest ih =>
    unfold feed at h
    split at h
    · exact absurd h (by simp)
    · rename_i m2 c hu
      exact ih (Inv_Update hinv hu) (choices_nonempty_Update hinv hne hu) h

theorem empty_feed (keys : List String) (m0 m : model)
    (hch : m0.choices = []) (hinfo : m0.infoText = "")
    (hlo : -1 ≤ m0.cursor) (hhi : m0.cursor ≤ 0)
    (hkeys : ∀ k ∈ keys, k = "down" ∨ k = "j" ∨ k = "up" ∨ k = "k")
    (h : feed m0 (keys.map Msg.KeyMsg) = some m) :
    m = { m0 with cursor := m.cursor } ∧ -1 ≤ m.cursor ∧ m.cursor ≤ 0 ∧
      ((∀ k ∈ keys, k = "down" ∨ k = "j") → m0.cursor = 0 → m.cursor = 0) := by
  induction keys generalizing m0 with
  | nil =>
    simp only [List.map_nil, feed, Option.some.injEq] at h
    subst h
    exact ⟨rfl, hlo, hhi, fun _ h0 => h0⟩
  | cons k rest ih =>
    have hrest : ∀ x ∈ rest, x = "down" ∨ x = "j" ∨ x = "up" ∨ x = "k" :=
      fun x hx => hkeys x (List.mem_cons_of_mem _ hx)
    have hnext : (if m0.cursor < (m0.choices.length : Int) - 1 then m0.cursor + 1 else 0) = 0 := by
      rw [if_neg]
      rw [hch]
      simp only [List.length_nil, Nat.cast_zero]
      omega
    have hprev : (if m0.cursor > 0 then m0.cursor - 1 else (m0.choices.length : Int) - 1) = -1 := by
      rw [if_neg (by omega), hch]
      simp
    rw [List.map_cons] at h
    unfold feed at h
    have hk := hkeys k (List.mem_cons_self _ _)
    by_cases hdown : k = "down" ∨ k = "j"
    · rw [Update_down m0 k hdown, hnext] at h
      simp only at h
      obtain ⟨h1, h2, h3, h4⟩ :=
        ih { m0 with infoText := "", cursor := 0 } hch rfl (by simp) (by simp) hrest h
      refine ⟨h1.trans (by simp [hinfo]), h2, h3,
        fun hall _ => h4 (fun x hx => hall x (List.mem_cons_of_mem _ hx)) rfl⟩
    · have hup : k = "up" ∨ k = "k" := by
        rcases hk with hk | hk | hk | hk
        · exact absurd (Or.inl hk) hdown
        · exact absurd (Or.inr hk) hdown
        · exact Or.inl hk
        · exact Or.inr hk
      rw [Update_up m0 k hup, hprev] at h
      simp only at h
      obtain ⟨h1, h2, h3, -⟩ :=
        ih { m0 with infoText := "", cursor := -1 } hch rfl (by simp) (by simp) hrest h
      exact ⟨h1.trans (by simp [hinfo]), h2, h3,
        fun hall _ => absurd (hall k (List.mem_cons_self _ _)) hdown⟩

/-! ## The claims on termination, on the index and on reachable states -/

/-- C11: in every state reached from the initial model (selected = -1) by
messages that all returned no command, whatever the depth and the stacks, the
key "q" or "ctrl+c" returns the quit command with the model unchanged, selected
is still -1, and the end of `main` reports no path. -/
theorem C11_quit_reports_nothing (allOUs : List (List String)) (cliChoices : List String)
    (msgs : List Msg) (m : model) (key : String)
    (h : feedRunning (initialModel allOUs cliChoices) msgs = some m)
    (hk : key = "q" ∨ key = "ctrl+c") :
    Update m (Msg.KeyMsg key) = some (m, Cmd.Quit) ∧ m.selected = -1 ∧
      ¬ (m.selected ≥ 0) ∧ selectionResult m = some none := by
  have hsel : m.selected = -1 := by
    rw [feedRunning_selected h]
    rfl
  refine ⟨Update_quit m key hk, hsel, by omega, ?_⟩
  unfold selectionResult
  rw [if_neg (by omega)]

theorem C11_quit_reports_nothing_witness :
    Update { ous := [["X", "dc=a", "dc=b"], ["Y", "ou=X", "dc=a", "dc=b"]]
             choices := ["Y,ou=X,dc=a,dc=b"]
             infoText := ""
             cursor := 0
             selected := -1
             depth := 2
             ouStack := [["X,dc=a,dc=b"]]
             cursorStack := [0] } (Msg.KeyMsg "ctrl+c") =
      some ({ ous := [["X", "dc=a", "dc=b"], ["Y", "ou=X", "dc=a", "dc=b"]]
              choices := ["Y,ou=X,dc=a,dc=b"]
              infoText := ""
              cursor := 0
              selected := -1
              depth := 2
              ouStack := [["X,dc=a,dc=b"]]
              cursorStack := [0] }, Cmd.Quit) ∧
    selectionResult { ous := [["X", "dc=a", "dc=b"], ["Y", "ou=X", "dc=a", "dc=b"]]
                      choices := ["Y,ou=X,dc=a,dc=b"]
                      infoText := ""
                      cursor := 0
                      selected := -1
                      depth := 2
                      ouStack := [["X,dc=a,dc=b"]]
                      cursorStack := [0] } = some none := by
  obtain ⟨h1, -, -, h2⟩ := C11_quit_reports_nothing
    [["X", "dc=a", "dc=b"], ["Y", "ou=X", "dc=a", "dc=b"]] ["X,dc=a,dc=b"]
    [Msg.KeyMsg "right", Msg.KeyMsg "down"]
    { ous := [["X", "dc=a", "dc=b"], ["Y", "ou=X", "dc=a", "dc=b"]]
      choices := ["Y,ou=X,dc=a,dc=b"]
      infoText := ""
      cursor := 0
      selected := -1
      depth := 2
      ouStack := [["X,dc=a,dc=b"]]
      cursorStack := [0] } "ctrl+c" (by decide) (Or.inr rfl)
  exact ⟨h1, h2⟩

/-- C12: for every list of raw path strings the index built in `main` is the
list of the entries split on ",", in order, and the initial choice set is the
sub-list of the entries whose split has at most 3 segments, in input order and
with duplicates kept; for the two entries of Scenario A the initial choice set
is the 3-segment entry alone and DrillIn on it yields a choice set that
contains the 4-segment entry. -/
theorem C12_index_and_initial_choices (entries : List String) :
    (mainModel entries).ous = entries.map (fun e => Split e ',') ∧
    (mainModel entries).choices =
      entries.filter (fun e => decide ((Split e ',').length ≤ 3)) ∧
    (∀ e, e ∈ (mainModel entries).choices ↔ e ∈ entries ∧ (Split e ',').length ≤ 3) ∧
    (∀ e, (Split e ',').length ≤ 3 →
      (mainModel entries).choices.count e = entries.count e) ∧
    List.Sublist (mainModel entries).choices entries ∧
    (mainModel ["ou=X,dc=a,dc=b", "ou=Y,ou=X,dc=a,dc=b"]).choices = ["ou=X,dc=a,dc=b"] ∧
    (∃ m1, Update (mainModel ["ou=X,dc=a,dc=b", "ou=Y,ou=X,dc=a,dc=b"])
        (Msg.KeyMsg "right") = some (m1, Cmd.nil) ∧
      "ou=Y,ou=X,dc=a,dc=b" ∈ m1.choices) := by
  refine ⟨mainModel_ous entries, mainModel_choices entries, fun e => ?_, fun e he => ?_, ?_,
    by decide, ?_⟩
  · rw [mainModel_choices, List.mem_filter]
    simp
  · rw [mainModel_choices, List.count_filter]
    simpa using he
  · rw [mainModel_choices]
    exact List.filter_sublist _
  · exact ⟨{ ous := [["ou=X", "dc=a", "dc=b"], ["ou=Y", "ou=X", "dc=a", "dc=b"]]
             choices := ["ou=Y,ou=X,dc=a,dc=b"]
             infoText := ""
             cursor := 0
             selected := -1
             depth := 2
             ouStack := [["ou=X,dc=a,dc=b"]]
             cursorStack := [0] }, by decide, by decide⟩

/-- C13, the failing input: for the single raw entry "X,dc=a,dc=b,dc=c" (four
segments) the index is non-empty and the initial choice set is empty, the
initial state is reached by the empty sequence of events, and there the key
"right" panics on `m.choices[m.cursor]`. -/
theorem C13_drill_in_panics_on_empty_choices :
    (mainModel ["X,dc=a,dc=b,dc=c"]).ous = [["X", "dc=a", "dc=b", "dc=c"]] ∧
    (mainModel ["X,dc=a,dc=b,dc=c"]).choices = [] ∧
    feed (mainModel ["X,dc=a,dc=b,dc=c"]) [] = some (mainModel ["X,dc=a,dc=b,dc=c"]) ∧
    index (mainModel ["X,dc=a,dc=b,dc=c"]).choices (mainModel ["X,dc=a,dc=b,dc=c"]).cursor =
      none ∧
    Update (mainModel ["X,dc=a,dc=b,dc=c"]) (Msg.KeyMsg "right") = none := by
  decide

/-- C14 (as amended): in every state reachable from the initial model built
from a raw input list, a DrillIn that finds children yields a choice set whose
entries all have exactly depth + 3 segments, depth being the depth before the
DrillIn; that is exactly one more than the highlighted entry whenever the depth
is at least 2 or the highlighted entry has 3 segments. -/
theorem C14_children_segment_count (entries : List String) (msgs : List Msg) (m : model)
    (sel : String) (h : feed (mainModel entries) msgs = some m)
    (hsel : index m.choices m.cursor = some sel)
    (hne : childrenOf sel m.depth m.ous ≠ []) :
    ∃ m1, Update m (Msg.KeyMsg "right") = some (m1, Cmd.nil) ∧
      m1.choices = childrenOf sel m.depth m.ous ∧ m1.depth = m.depth + 1 ∧
      ∀ e ∈ m1.choices, ((Split e ',').length : Int) = m.depth + 3 ∧
        ((2 ≤ m.depth ∨ (Split sel ',').length = 3) →
          (Split e ',').length = (Split sel ',').length + 1) := by
  obtain ⟨hinv, hidx⟩ := invariants_reachable h
  have hstep : Update m (Msg.KeyMsg "right") =
      some ({ m with
              infoText := ""
              ouStack := m.ouStack ++ [m.choices]
              cursorStack := m.cursorStack ++ [m.cursor]
              choices := childrenOf sel m.depth m.ous
              cursor := 0
              depth := m.depth + 1 }, Cmd.nil) := by
    rw [Update_right_some m sel hsel, if_pos (List.length_pos.mpr hne)]
  refine ⟨_, hstep, rfl, rfl, fun e he => ?_⟩
  have he2 : e ∈ entries.filter (fun e =>
      Contains e sel && decide (((Split e ',').length : Int) = m.depth + 3)) := by
    rw [← childrenOf_map_Split, ← hidx.ous]
    exact he
  have hseg : ((Split e ',').length : Int) = m.depth + 3 := by
    have h2 := (List.mem_filter.mp he2).2
    simp only [Bool.and_eq_true, decide_eq_true_eq] at h2
    exact h2.2
  refine ⟨hseg, fun hor => ?_⟩
  have hselmem : sel ∈ m.choices := by
    rw [index_eq_some_iff] at hsel
    exact List.getElem?_mem hsel.2
  by_cases hd : 2 ≤ m.depth
  · have := segments_below_root hinv hidx hd sel hselmem
    omega
  · have hdep := hinv.depth
    rcases hor with h2 | h3
    · exact absurd h2 hd
    · omega

theorem C14_children_segment_count_witness :
    ∃ m1, Update (mainModel ["X,dc=a,dc=b", "Y,ou=X,dc=a,dc=b"]) (Msg.KeyMsg "right") =
        some (m1, Cmd.nil) ∧
      m1.choices = ["Y,ou=X,dc=a,dc=b"] ∧
      ((Split "Y,ou=X,dc=a,dc=b" ',').length : Int) = 1 + 3 ∧
      (Split "Y,ou=X,dc=a,dc=b" ',').length = (Split "X,dc=a,dc=b" ',').length + 1 := by
  obtain ⟨m1, h1, h2, -, h3⟩ := C14_children_segment_count
    ["X,dc=a,dc=b", "Y,ou=X,dc=a,dc=b"] [] (mainModel ["X,dc=a,dc=b", "Y,ou=X,dc=a,dc=b"])
    "X,dc=a,dc=b" (by decide) (by decide) (by decide)
  have hch : m1.choices = ["Y,ou=X,dc=a,dc=b"] := h2.trans (by decide)
  have hmem : "Y,ou=X,dc=a,dc=b" ∈ m1.choices := by
    rw [hch]
    exact List.mem_singleton.mpr rfl
  exact ⟨m1, h1, hch, (h3 _ hmem).1, (h3 _ hmem).2 (Or.inr (by decide))⟩

/-- C14 as stated fails: from the raw entries "a" and "a,b,c,d" the initial
choice set is ["a"], one segment; DrillIn on it succeeds and yields
["a,b,c,d"], four segments, which is three more than the highlighted entry. -/
theorem C14_counterexample :
    feed (mainModel ["a", "a,b,c,d"]) [] = some (mainModel ["a", "a,b,c,d"]) ∧
    index (mainModel ["a", "a,b,c,d"]).choices (mainModel ["a", "a,b,c,d"]).cursor =
      some "a" ∧
    Update (mainModel ["a", "a,b,c,d"]) (Msg.KeyMsg "right") =
      some ({ ous := [["a"], ["a", "b", "c", "d"]]
              choices := ["a,b,c,d"]
              infoText := ""
              cursor := 0
              selected := -1
              depth := 2
              ouStack := [["a"]]
              cursorStack := [0] }, Cmd.nil) ∧
    (Split "a" ',').length = 1 ∧ (Split "a,b,c,d" ',').length = 4 ∧
    (Split "a,b,c,d" ',').length ≠ (Split "a" ',').length + 1 := by
  decide

/-- C15: child matching is substring containment: for the sorted raw input
"X,dc=a,dc=b", "XX,dc=a,dc=b", "Y,ou=XX,dc=a,dc=b", in the initial state the
highlighted entry is S = "X,dc=a,dc=b" and DrillIn puts "Y,ou=XX,dc=a,dc=b"
into the new choice set: it contains S as a substring, but with its first
segment removed it is "ou=XX,dc=a,dc=b", not "ou=" followed by S. -/
theorem C15_substring_not_parent :
    ∃ (entries : List String) (msgs : List Msg) (m m1 : model) (S e : String),
      StringsAreSorted entries ∧
      feed (mainModel entries) msgs = some m ∧
      index m.choices m.cursor = some S ∧
      Update m (Msg.KeyMsg "right") = some (m1, Cmd.nil) ∧
      e ∈ m1.choices ∧ Contains e S = true ∧
      Join (Split e ',').tail "," ≠ "ou=" ++ S ∧
      S = "X,dc=a,dc=b" ∧ e = "Y,ou=XX,dc=a,dc=b" :=
  ⟨["X,dc=a,dc=b", "XX,dc=a,dc=b", "Y,ou=XX,dc=a,dc=b"], [],
   mainModel ["X,dc=a,dc=b", "XX,dc=a,dc=b", "Y,ou=XX,dc=a,dc=b"],
   { ous := [["X", "dc=a", "dc=b"], ["XX", "dc=a", "dc=b"], ["Y", "ou=XX", "dc=a", "dc=b"]]
     choices := ["Y,ou=XX,dc=a,dc=b"]
     infoText := ""
     cursor := 0
     selected := -1
     depth := 2
     ouStack := [["X,dc=a,dc=b", "XX,dc=a,dc=b"]]
     cursorStack := [0] },
   "X,dc=a,dc=b", "Y,ou=XX,dc=a,dc=b",
   by decide, by decide, by decide, by decide, by decide, by decide, by decide, rfl, rfl⟩

/-- C16 (as amended): for every state, the advisory text is empty after
MoveNext, MovePrev and DrillOut (at any depth); after a DrillIn with the cursor
in range it is empty when children were found and the non-empty text when none
were found, whatever it was before; Confirm and Quit leave it as it was; so
after one of the four navigation transitions it is non-empty only when that
transition is a DrillIn that found no children. -/
theorem C16_advisory_text (m : model) :
    (∀ key, key = "down" ∨ key = "j" ∨ key = "up" ∨ key = "k" ∨ key = "left" →
      ∃ m1, Update m (Msg.KeyMsg key) = some (m1, Cmd.nil) ∧ m1.infoText = "") ∧
    (∀ sel, index m.choices m.cursor = some sel →
      ∃ m1, Update m (Msg.KeyMsg "right") = some (m1, Cmd.nil) ∧
        (childrenOf sel m.depth m.ous ≠ [] → m1.infoText = "") ∧
        (childrenOf sel m.depth m.ous = [] →
          m1.infoText = "THE SELECTED OU IS EMPTY!" ∧ m1.infoText ≠ "")) ∧
    (∀ key, key = "enter" ∨ key = "q" ∨ key = "ctrl+c" →
      ∃ m1, Update m (Msg.KeyMsg key) = some (m1, Cmd.Quit) ∧ m1.infoText = m.infoText) ∧
    (∀ key m1 c,
      key = "down" ∨ key = "j" ∨ key = "up" ∨ key = "k" ∨ key = "left" ∨ key = "right" →
      Update m (Msg.KeyMsg key) = some (m1, c) → m1.infoText ≠ "" →
      key = "right" ∧
        ∀ sel, index m.choices m.cursor = some sel → childrenOf sel m.depth m.ous = []) := by
  have hnav : ∀ key, key = "down" ∨ key = "j" ∨ key = "up" ∨ key = "k" ∨ key = "left" →
      ∃ m1, Update m (Msg.KeyMsg key) = some (m1, Cmd.nil) ∧ m1.infoText = "" := by
    intro key hkey
    rcases hkey with hk | hk | hk | hk | hk
    · exact ⟨_, Update_down m key (Or.inl hk), rfl⟩
    · exact ⟨_, Update_down m key (Or.inr hk), rfl⟩
    · exact ⟨_, Update_up m key (Or.inl hk), rfl⟩
    · exact ⟨_, Update_up m key (Or.inr hk), rfl⟩
    · subst hk
      simp only [Update, String.reduceEq, or_self, if_false, if_true]
      split_ifs <;> exact ⟨_, rfl, rfl⟩
  refine ⟨hnav, fun sel hsel => ?_, fun key hkey => ?_, fun key m1 c hkey hu hinfo => ?_⟩
  · by_cases hne : childrenOf sel m.depth m.ous = []
    · refine ⟨{ m with infoText := "THE SELECTED OU IS EMPTY!" }, ?_,
        fun hcontra => absurd hne hcontra, fun _ => ⟨rfl, by simp⟩⟩
      rw [Update_right_some m sel hsel, hne]
      simp
    · refine ⟨{ m with
                infoText := ""
                ouStack := m.ouStack ++ [m.choices]
                cursorStack := m.cursorStack ++ [m.cursor]
                choices := childrenOf sel m.depth m.ous
                cursor := 0
                depth := m.depth + 1 }, ?_, fun _ => rfl, fun hcontra => absurd hcontra hne⟩
      rw [Update_right_some m sel hsel, if_pos (List.length_pos.mpr hne)]
  · rcases hkey with hk | hk | hk
    · subst hk
      exact ⟨_, Update_enter m, rfl⟩
    · exact ⟨_, Update_quit m key (Or.inl hk), rfl⟩
    · exact ⟨_, Update_quit m key (Or.inr hk), rfl⟩
  · have hright : key = "right" := by
      by_contra hnot
      have hkey5 : key = "down" ∨ key = "j" ∨ key = "up" ∨ key = "k" ∨ key = "left" := by
        rcases hkey with hk | hk | hk | hk | hk | hk
        · exact Or.inl hk
        · exact Or.inr (Or.inl hk)
        · exact Or.inr (Or.inr (Or.inl hk))
        · exact Or.inr (Or.inr (Or.inr (Or.inl hk)))
        · exact Or.inr (Or.inr (Or.inr (Or.inr hk)))
        · exact absurd hk hnot
      obtain ⟨m2, hu2, hinfo2⟩ := hnav key hkey5
      rw [hu2] at hu
      simp only [Option.some.injEq, Prod.mk.injEq] at hu
      rw [← hu.1] at hinfo
      exact hinfo hinfo2
    refine ⟨hright, fun sel hsel => ?_⟩
    subst hright
    by_contra hne
    rw [Update_right_some m sel hsel, if_pos (List.length_pos.mpr hne)] at hu
    simp only [Option.some.injEq, Prod.mk.injEq] at hu
    rw [← hu.1] at hinfo
    exact hinfo rfl

theorem C16_advisory_text_witness :
    ∃ m1, Update { ous := [["X", "dc=a", "dc=b"]], choices := ["X,dc=a,dc=b"],
                   infoText := "THE SELECTED OU IS EMPTY!", cursor := 0, selected := -1,
                   depth := 1, ouStack := [], cursorStack := [] }
        (Msg.KeyMsg "right") = some (m1, Cmd.nil) ∧
      m1.infoText = "THE SELECTED OU IS EMPTY!" ∧ m1.infoText ≠ "" := by
  obtain ⟨m1, h1, -, h2⟩ := (C16_advisory_text
    { ous := [["X", "dc=a", "dc=b"]], choices := ["X,dc=a,dc=b"],
      infoText := "THE SELECTED OU IS EMPTY!", cursor := 0, selected := -1,
      depth := 1, ouStack := [], cursorStack := [] }).2.1 "X,dc=a,dc=b" (by decide)
  exact ⟨m1, h1, h2 (by decide)⟩

/-- C16 as stated fails: after a failed DrillIn from the initial state of the
single entry "X,dc=a,dc=b" the advisory text is set, and the key "q", the Quit
transition, returns the state as it is: the text is non-empty after a
transition that is not a DrillIn. -/
theorem C16_counterexample :
    feed (mainModel ["X,dc=a,dc=b"]) [Msg.KeyMsg "right"] =
      some { ous := [["X", "dc=a", "dc=b"]], choices := ["X,dc=a,dc=b"],
             infoText := "THE SELECTED OU IS EMPTY!", cursor := 0, selected := -1,
             depth := 1, ouStack := [], cursorStack := [] } ∧
    Update { ous := [["X", "dc=a", "dc=b"]], choices := ["X,dc=a,dc=b"],
             infoText := "THE SELECTED OU IS EMPTY!", cursor := 0, selected := -1,
             depth := 1, ouStack := [], cursorStack := [] } (Msg.KeyMsg "q") =
      some ({ ous := [["X", "dc=a", "dc=b"]], choices := ["X,dc=a,dc=b"],
              infoText := "THE SELECTED OU IS EMPTY!", cursor := 0, selected := -1,
              depth := 1, ouStack := [], cursorStack := [] }, Cmd.Quit) ∧
    "THE SELECTED OU IS EMPTY!" ≠ "" ∧ "q" ≠ "right" := by
  decide

/-- C17 (as amended): in every state reached from the initial model of the
empty raw list by MoveNext and MovePrev keys the choice set is empty and the
key "down" sets the cursor to 0 and changes nothing else; it leaves the whole
state unchanged when the cursor is 0, as in the initial state and after any
sequence of MoveNext keys. -/
theorem C17_move_next_on_empty (keys : List String) (m : model)
    (hkeys : ∀ k ∈ keys, k = "down" ∨ k = "j" ∨ k = "up" ∨ k = "k")
    (h : feed (mainModel []) (keys.map Msg.KeyMsg) = some m) :
    m.choices = [] ∧
    Update m (Msg.KeyMsg "down") = some ({ m with cursor := 0 }, Cmd.nil) ∧
    (m.cursor = 0 → Update m (Msg.KeyMsg "down") = some (m, Cmd.nil)) ∧
    ((∀ k ∈ keys, k = "down" ∨ k = "j") →
      m = mainModel [] ∧ Update m (Msg.KeyMsg "down") = some (m, Cmd.nil)) := by
  obtain ⟨h1, h2, h3, h4⟩ := empty_feed keys (mainModel []) m rfl rfl (by decide) (by decide)
    hkeys h
  have hch : m.choices = [] := by
    rw [h1]
    rfl
  have hinfo : m.infoText = "" := by
    rw [h1]
    rfl
  have hstep : Update m (Msg.KeyMsg "down") = some ({ m with cursor := 0 }, Cmd.nil) := by
    rw [Update_down m "down" (Or.inl rfl), if_neg]
    · simp [hinfo]
    · rw [hch]
      simp only [List.length_nil, Nat.cast_zero]
      omega
  have hfix : m.cursor = 0 → Update m (Msg.KeyMsg "down") = some (m, Cmd.nil) := by
    intro hc
    rw [hstep]
    simp [← hc]
  refine ⟨hch, hstep, hfix, fun hall => ?_⟩
  have hc : m.cursor = 0 := h4 hall rfl
  refine ⟨?_, hfix hc⟩
  rw [h1, hc]
  rfl

theorem C17_move_next_on_empty_witness :
    Update { ous := [], choices := [], infoText := "", cursor := -1, selected := -1,
             depth := 1, ouStack := [], cursorStack := [] } (Msg.KeyMsg "down") =
      some ({ ous := [], choices := [], infoText := "", cursor := 0, selected := -1,
              depth := 1, ouStack := [], cursorStack := [] }, Cmd.nil) :=
  (C17_move_next_on_empty ["down", "up"]
    { ous := [], choices := [], infoText := "", cursor := -1, selected := -1,
      depth := 1, ouStack := [], cursorStack := [] } (by decide) (by decide)).2.1

/-- C17 as stated fails: from the initial model of the empty raw list the key
"up" leads to the state with an empty choice set and cursor -1, and there the
key "down" changes the cursor to 0. -/
theorem C17_counterexample :
    feed (mainModel []) [Msg.KeyMsg "up"] =
      some { ous := [], choices := [], infoText := "", cursor := -1, selected := -1,
             depth := 1, ouStack := [], cursorStack := [] } ∧
    Update { ous := [], choices := [], infoText := "", cursor := -1, selected := -1,
             depth := 1, ouStack := [], cursorStack := [] } (Msg.KeyMsg "down") =
      some ({ ous := [], choices := [], infoText := "", cursor := 0, selected := -1,
              depth := 1, ouStack := [], cursorStack := [] }, Cmd.nil) ∧
    ({ ous := [], choices := [], infoText := "", cursor := 0, selected := -1,
       depth := 1, ouStack := [], cursorStack := [] } : model) ≠
      { ous := [], choices := [], infoText := "", cursor := -1, selected := -1,
        depth := 1, ouStack := [], cursorStack := [] } := by
  decide

/-- C18: if the initial choice set is non-empty then in every reachable state
the current choice set and every choice set on the choice stack are non-empty,
the stacks have the same length and every stacked cursor is a valid index of
the choice set stacked at the same position; so `choices[cursor]` exists,
DrillIn does not panic, the read of `choices[selected]` after Confirm
succeeds, and in DrillOut below the root `PopArray` returns a non-empty choice
set and `Pop` returns ok = true. -/
theorem C18_nonempty_and_in_range (allOUs : List (List String)) (cliChoices : List String)
    (msgs : List Msg) (m : model) (hne : cliChoices ≠ [])
    (h : feed (initialModel allOUs cliChoices) msgs = some m) :
    m.choices ≠ [] ∧ (∀ cs ∈ m.ouStack, cs ≠ []) ∧
    m.ouStack.length = m.cursorStack.length ∧
    (∀ p ∈ List.zip m.ouStack m.cursorStack, 0 ≤ p.2 ∧ p.2 < (p.1.length : Int)) ∧
    (∃ sel, index m.choices m.cursor = some sel ∧
      Update m (Msg.KeyMsg "right") ≠ none ∧
      Update m (Msg.KeyMsg "enter") = some ({ m with selected := m.cursor }, Cmd.Quit) ∧
      selectionResult { m with selected := m.cursor } = some (some sel)) ∧
    (m.depth > 1 → (PopArray m.ouStack).1 ≠ [] ∧ (Pop m.cursorStack).1.2 = true) := by
  have hinv := Inv_feed (Inv_initialModel allOUs cliChoices) h
  have hch : m.choices ≠ [] :=
    choices_nonempty_feed (Inv_initialModel allOUs cliChoices) hne h
  obtain ⟨h0, h1⟩ := hinv.cur hch
  obtain ⟨sel, hsel⟩ := index_isSome_of_range m.choices m.cursor h0 h1
  refine ⟨hch, fun cs hcs => ?_, hinv.lens, hinv.stack, ⟨sel, hsel, ?_, Update_enter m, ?_⟩,
    fun hd => ?_⟩
  · obtain ⟨v, hv⟩ := exists_mem_zip m.ouStack m.cursorStack hinv.lens cs hcs
    have hr := hinv.stack (cs, v) hv
    intro hnil
    rw [hnil] at hr
    simp only [List.length_nil, Nat.cast_zero] at hr
    omega
  · rw [Update_right_some m sel hsel]
    split_ifs <;> simp
  · simp only [selectionResult, ge_iff_le, h0, if_true, hsel]
  · obtain ⟨s, e, t, v, hse, htv, hev⟩ := Inv_top hinv hd
    rw [hse, htv, PopArray_concat, Pop_concat]
    refine ⟨fun hnil => ?_, rfl⟩
    simp only at hnil
    rw [hnil] at hev
    simp only [List.length_nil, Nat.cast_zero] at hev
    omega

theorem C18_nonempty_and_in_range_witness :
    (["Y,ou=X,dc=a,dc=b"] : List String) ≠ [] ∧
    (PopArray [["X,dc=a,dc=b"]]).1 ≠ [] ∧ (Pop [0]).1.2 = true := by
  obtain ⟨h1, -, -, -, -, h2⟩ := C18_nonempty_and_in_range
    [["X", "dc=a", "dc=b"], ["Y", "ou=X", "dc=a", "dc=b"]] ["X,dc=a,dc=b"]
    [Msg.KeyMsg "right"]
    { ous := [["X", "dc=a", "dc=b"], ["Y", "ou=X", "dc=a", "dc=b"]]
      choices := ["Y,ou=X,dc=a,dc=b"]
      infoText := ""
      cursor := 0
      selected := -1
      depth := 2
      ouStack := [["X,dc=a,dc=b"]]
      cursorStack := [0] } (by decide) (by decide)
  exact ⟨h1, h2 (by decide)⟩

/-- C19: joining the split of an entry gives the entry back, and for every raw
input list, in every state reachable from the initial model built from it, the
current choice set and every choice set on the choice stack are order-preserving
sub-lists of the raw input; hence the highlighted string, which Confirm
reports, is one of the input strings, and every choice set is sorted whenever
the input is sorted (for the order of `sort.Strings` and for any other
relation). -/
theorem C19_choices_sublist_of_input (entries : List String) (msgs : List Msg) (m : model)
    (h : feed (mainModel entries) msgs = some m) :
    (∀ e : String, Join (Split e ',') "," = e) ∧
    List.Sublist m.choices entries ∧ (∀ cs ∈ m.ouStack, List.Sublist cs entries) ∧
    (∀ s, index m.choices m.cursor = some s →
      s ∈ entries ∧
      Update m (Msg.KeyMsg "enter") = some ({ m with selected := m.cursor }, Cmd.Quit) ∧
      selectionResult { m with selected := m.cursor } = some (some s)) ∧
    (StringsAreSorted entries →
      StringsAreSorted m.choices ∧ ∀ cs ∈ m.ouStack, StringsAreSorted cs) ∧
    (∀ r : String → String → Prop, List.Pairwise r entries →
      List.Pairwise r m.choices ∧ ∀ cs ∈ m.ouStack, List.Pairwise r cs) := by
  obtain ⟨-, hidx⟩ := invariants_reachable h
  have hcur : List.Sublist m.choices entries :=
    hidx.sub m.choices (by simp [levels])
  have hstk : ∀ cs ∈ m.ouStack, List.Sublist cs entries :=
    fun cs hcs => hidx.sub cs (by simp [levels, hcs])
  refine ⟨Join_Split, hcur, hstk, fun s hs => ⟨?_, Update_enter m, ?_⟩, fun hsorted => ?_,
    fun r hr => ⟨List.Pairwise.sublist hcur hr,
      fun cs hcs => List.Pairwise.sublist (hstk cs hcs) hr⟩⟩
  · have hmem : s ∈ m.choices := List.getElem?_mem ((index_eq_some_iff _ _ _).mp hs).2
    exact hcur.subset hmem
  · have h0 : 0 ≤ m.cursor := ((index_eq_some_iff _ _ _).mp hs).1
    simp only [selectionResult, ge_iff_le, h0, if_true, hs]
  · exact ⟨List.Pairwise.sublist hcur hsorted,
      fun cs hcs => List.Pairwise.sublist (hstk cs hcs) hsorted⟩

theorem C19_choices_sublist_of_input_witness :
    List.Sublist ["Y,ou=X,dc=a,dc=b"] ["X,dc=a,dc=b", "Y,ou=X,dc=a,dc=b"] ∧
    List.Sublist ["X,dc=a,dc=b"] ["X,dc=a,dc=b", "Y,ou=X,dc=a,dc=b"] := by
  obtain ⟨-, h1, h2, -, -, -⟩ := C19_choices_sublist_of_input
    ["X,dc=a,dc=b", "Y,ou=X,dc=a,dc=b"] [Msg.KeyMsg "right"]
    { ous := [["X", "dc=a", "dc=b"], ["Y", "ou=X", "dc=a", "dc=b"]]
      choices := ["Y,ou=X,dc=a,dc=b"]
      infoText := ""
      cursor := 0
      selected := -1
      depth := 2
      ouStack := [["X,dc=a,dc=b"]]
      cursorStack := [0] } (by decide)
  exact ⟨h1, h2 _ (List.mem_singleton.mpr rfl)⟩

/-- C20: for every raw input list, in every state reachable from the initial
model built from it with depth at least 2, every entry of the current choice
set splits on "," into exactly depth + 2 segments; at depth 1 every entry has
between 1 and 3 segments, and each of 1, 2 and 3 occurs for the raw input
"a", "a,b", "a,b,c". -/
theorem C20_depth_and_segments (entries : List String) (msgs : List Msg) (m : model)
    (h : feed (mainModel entries) msgs = some m) :
    (2 ≤ m.depth → ∀ e ∈ m.choices, ((Split e ',').length : Int) = m.depth + 2) ∧
    (m.depth = 1 → ∀ e ∈ m.choices, 1 ≤ (Split e ',').length ∧ (Split e ',').length ≤ 3) ∧
    ((mainModel ["a", "a,b", "a,b,c"]).depth = 1 ∧
      (mainModel ["a", "a,b", "a,b,c"]).choices = ["a", "a,b", "a,b,c"] ∧
      (Split "a" ',').length = 1 ∧ (Split "a,b" ',').length = 2 ∧
      (Split "a,b,c" ',').length = 3) := by
  obtain ⟨hinv, hidx⟩ := invariants_reachable h
  exact ⟨segments_below_root hinv hidx,
    fun hd e he => ⟨Split_length_pos e, segments_at_root hinv hidx hd e he⟩, by decide⟩

theorem C20_depth_and_segments_witness :
    ((Split "Y,ou=X,dc=a,dc=b" ',').length : Int) = 2 + 2 :=
  (C20_depth_and_segments ["X,dc=a,dc=b", "Y,ou=X,dc=a,dc=b"] [Msg.KeyMsg "right"]
    { ous := [["X", "dc=a", "dc=b"], ["Y", "ou=X", "dc=a", "dc=b"]]
      choices := ["Y,ou=X,dc=a,dc=b"]
      infoText := ""
      cursor := 0
      selected := -1
      depth := 2
      ouStack := [["X,dc=a,dc=b"]]
      cursorStack := [0] } (by decide)).1 (by decide) "Y,ou=X,dc=a,dc=b" (by decide)

end Zou
